import Mathlib

/-!
Verification of the SHURIUM consensus core and UBI distribution engine.

The definitions below are shallow embeddings of the C++ sources:
  * `src/src/consensus/pouw.cpp` — subsidy schedule, compact-target
    arithmetic, difficulty adjustment, PoUW commitment validation;
  * economics/ubi (`src/unnamed/part_000`) — epoch pools, the UBI
    distributor, claim processing, and persistence.

A 256-bit little-endian `Hash256` is represented by its numeric value
(a `Nat` below `2 ^ 256`); byte `i` of the array is `t / 2 ^ (8 * i) % 256`.
Machine integers are modelled as `Nat`/`Int` with explicit wrapping where
the C++ semantics demand it.  External modules that are not part of the
repository snapshot (the ZK proof system, the identity manager) enter as
explicit parameters or as definitions marked `Modelled from the spec:`.
-/

namespace Shurium

/-- Byte `i` of the little-endian 256-bit array holding the value `t`. -/
def byteAt (t i : Nat) : Nat := t / 2 ^ (8 * i) % 256

/-- Scan bytes `n-1, n-2, …, 0` of `t` from the top and return the index of
the first non-zero byte, mirroring the `for (int i = 31; i >= 0; --i)` loop
of `BigToCompact`. -/
def findMsbAux (t : Nat) : Nat → Option Nat
  | 0 => none
  | i + 1 => if byteAt t i ≠ 0 then some i else findMsbAux t i

/-- Index of the most significant non-zero byte of a 256-bit value
(`msb_pos` in `BigToCompact`); `none` when all 32 bytes are zero. -/
def findMsb (t : Nat) : Option Nat := findMsbAux t 32

/-- The word accumulated by the `for (int i = size - 1; i >= 0; --i)` loop of
`BigToCompact`'s small-size branch: `leWord t k = Σ_{i<k} byteAt t i * 256^i`. -/
def leWord (t : Nat) : Nat → Nat
  | 0 => 0
  | k + 1 => byteAt t k * 256 ^ k + leWord t k

/-- `CompactToBig` from `src/src/consensus/pouw.cpp`:
expand a 32-bit compact target into the 256-bit target value.
`size = (c >> 24) & 0xFF`, `word = c & 0x007FFFFF`; a set sign bit
(`c & 0x00800000`) or `size > 34` yields the zero target; for `size ≤ 3` the
word is shifted down into the low bytes, otherwise it is placed at byte
offset `size - 3` (nothing is stored when that offset exceeds 29). -/
def CompactToBig (c : Nat) : Nat :=
  let size := c / 2 ^ 24 % 256
  let word := c % 2 ^ 23
  if c / 2 ^ 23 % 2 = 1 then 0
  else if 34 < size then 0
  else if size ≤ 3 then word / 2 ^ (8 * (3 - size))
  else if size - 3 ≤ 29 then word * 2 ^ (8 * (size - 3))
  else 0

/-- `BigToCompact` from `src/src/consensus/pouw.cpp`:
pack a 256-bit target into the 32-bit compact form.  The most significant
non-zero byte determines `size`; values of at most three bytes are shifted up
into the 24-bit word, otherwise the top three bytes form the word, shifting
once more (and bumping `size`) when the word's sign bit is set. -/
def BigToCompact (t : Nat) : Nat :=
  match findMsb t with
  | none => 0
  | some msb =>
    let size := msb + 1
    if size ≤ 3 then
      let word := leWord t size * 2 ^ (8 * (3 - size))
      size * 2 ^ 24 + word
    else
      let word := t / 2 ^ (8 * (msb - 2)) % 2 ^ 24
      if 2 ^ 23 ≤ word then (size + 1) * 2 ^ 24 + word / 2 ^ 8
      else size * 2 ^ 24 + word

/-- The byte-by-byte MSB-to-LSB comparison loop used by `CheckProofOfWork`
and `CalculateNextWorkRequired`: `exceedsGo t p i` is true when, scanning
bytes `i, i-1, …, 0`, the first byte at which `t` and `p` differ is larger in
`t` (i.e. the target exceeds the limit). -/
def exceedsGo (t p : Nat) : Nat → Bool
  | 0 => decide (byteAt p 0 < byteAt t 0)
  | i + 1 =>
    if byteAt p (i + 1) < byteAt t (i + 1) then true
    else if byteAt t (i + 1) < byteAt p (i + 1) then false
    else exceedsGo t p i

/-- `targetExceedsLimit` computation: compare the 32 bytes from index 31
down, as in the loops of `CheckProofOfWork` and `CalculateNextWorkRequired`. -/
def targetExceedsLimit (t p : Nat) : Bool := exceedsGo t p 31

/-- Per-network consensus parameters (`consensus::Params`).  The structure
itself is declared in a header outside the snapshot; the fields below are
exactly those read by the embedded functions, with the numeric profiles left
to each theorem.  `difficultyAdjustmentInterval` models the
`DifficultyAdjustmentInterval()` accessor (spec §4.C calls it `W`). -/
structure ChainParams where
  nInitialBlockReward : Nat
  nSubsidyHalvingInterval : Nat
  nPowTargetSpacing : Int
  nPowTargetTimespan : Int
  difficultyAdjustmentInterval : Nat
  powLimit : Nat
  fPowNoRetargeting : Bool
  fAllowMinDifficultyBlocks : Bool
  fPoUWOptional : Bool

/-- `GetBlockSubsidy` from `src/src/consensus/pouw.cpp`: the genesis height
returns the initial reward; otherwise the reward halves every
`nSubsidyHalvingInterval` blocks and is zero from the 64th halving on. -/
def GetBlockSubsidy (nHeight : Nat) (params : ChainParams) : Nat :=
  if nHeight = 0 then params.nInitialBlockReward
  else
    let halvings := nHeight / params.nSubsidyHalvingInterval
    if 64 ≤ halvings then 0
    else params.nInitialBlockReward >>> halvings

/-- `CheckProofOfWork` from `src/src/consensus/pouw.cpp`: reject a zero
`nBits`, expand the compact target, reject targets exceeding `powLimit`
(byte-wise MSB-first comparison), then require `hash < target`. -/
def CheckProofOfWork (hash nBits : Nat) (params : ChainParams) : Bool :=
  if nBits = 0 then false
  else
    let target := CompactToBig nBits
    if targetExceedsLimit target params.powLimit then false
    else decide (hash < target)

/-- Modelled from the spec: the mainnet `powLimit` constant lives in
`params.cpp`, which is absent from the snapshot.  Spec §8 S2 identifies the
maximum target with `Expand(0x1d00ffff)` ("the Bitcoin-style maximum"). -/
def powLimitMain : Nat := CompactToBig 0x1d00ffff

/-- Whether the low bytes of `t` below its top three significant bytes are
all zero and the most significant byte is below `0x80`, i.e. `t` survives the
compact encoding without truncation or a sign-bit collision. -/
def ExactCompact (t : Nat) : Prop :=
  byteAt t ((findMsb t).getD 0) < 128 ∧ t % 2 ^ (8 * ((findMsb t).getD 0 - 2)) = 0

instance : DecidablePred ExactCompact := fun t => by
  unfold ExactCompact; infer_instance

/-- A canonical compact value: sign bit clear, and either the mantissa's
high byte is non-zero with size between 1 and 32 (sizes 1 and 2 additionally
demanding that the bytes the expansion shifts away are zero), or the value is
the sign-renormalized form — a 16-bit mantissa of at least `0x8000` with size
between 5 and 32 (e.g. `0x1d00ffff`, the spec's own round-trip example). -/
def CanonicalCompact (c : Nat) : Prop :=
  c / 2 ^ 24 % 256 = c / 2 ^ 24 ∧
  c % 2 ^ 24 = c % 2 ^ 23 ∧
  ((2 ^ 16 ≤ c % 2 ^ 23 ∧ 1 ≤ c / 2 ^ 24 ∧ c / 2 ^ 24 ≤ 32 ∧
      (c / 2 ^ 24 = 1 → c % 2 ^ 16 = 0) ∧ (c / 2 ^ 24 = 2 → c % 2 ^ 8 = 0)) ∨
    (2 ^ 15 ≤ c % 2 ^ 23 ∧ c % 2 ^ 23 < 2 ^ 16 ∧ 5 ≤ c / 2 ^ 24 ∧ c / 2 ^ 24 ≤ 32))

instance : DecidablePred CanonicalCompact := fun c => by
  unfold CanonicalCompact; infer_instance

/-- A node of the in-memory chain index (`BlockIndex`).  The C++ type links
nodes through the non-owning `pprev` pointer; a chain is embedded as the
list of a node followed by its ancestors, the empty list standing for a null
pointer. -/
structure BlockIndexNode where
  nHeight : Nat
  nTime : Int
  nBits : Nat

/-- The block header handed to `GetNextWorkRequired`; only its timestamp is
read. -/
structure BlockHeader where
  nTime : Int

/-- The walk-back loop of `GetNextWorkRequired`'s min-difficulty branch:
step to the predecessor while the current block has one, is not at a
retarget-boundary height, and carries the minimum-difficulty `nBits`; return
the `nBits` of the block the walk stops at. -/
def walkBack (interval minBits : Nat) : List BlockIndexNode → Nat
  | [] => 0
  | [b] => b.nBits
  | b :: p :: rest =>
    if b.nHeight % interval ≠ 0 ∧ b.nBits = minBits then walkBack interval minBits (p :: rest)
    else b.nBits

/-- Mantissa renormalization upward (`while (nScaledMantissa > 0x007FFFFF)`):
shift right by 8 and bump the exponent until the mantissa fits 23 bits. -/
def normUp (s e : Nat) : Nat × Nat :=
  if 0x7FFFFF < s then normUp (s / 2 ^ 8) (e + 1) else (s, e)
termination_by s
decreasing_by exact Nat.div_lt_self (by omega) (by omega)

/-- Mantissa renormalization downward
(`while (nScaledMantissa < 0x008000 && nExponent > 1)`): shift left by 8 and
drop the exponent while the mantissa is small. -/
def normDown (s e : Nat) : Nat × Nat :=
  if s < 0x8000 ∧ 1 < e then normDown (s * 2 ^ 8) (e - 1) else (s, e)
termination_by e
decreasing_by omega

/-- `CalculateNextWorkRequired` from `src/src/consensus/pouw.cpp`: clamp the
observed timespan to `[T/4, 4T]`, scale the previous compact target's
mantissa by `actual/target`, renormalize the mantissa, clamp the exponent to
`[1, 32]`, pad once more if the sign bit would be set, and finally clamp the
result to `powLimit`.  The `uint64_t` casts of the signed timespans are kept
as wrapping conversions. -/
def CalculateNextWorkRequired (last : BlockIndexNode) (nFirstBlockTime : Int)
    (params : ChainParams) : Nat :=
  if params.fPowNoRetargeting then last.nBits
  else
    let nTargetTimespan := params.nPowTargetTimespan
    let clamped :=
      let a := last.nTime - nFirstBlockTime
      let a := if a < Int.tdiv nTargetTimespan 4 then Int.tdiv nTargetTimespan 4 else a
      if nTargetTimespan * 4 < a then nTargetTimespan * 4 else a
    let nExponent := last.nBits / 2 ^ 24 % 256
    let nMantissa := last.nBits % 2 ^ 23
    let scaled := nMantissa * (clamped % (2 ^ 64 : Int)).toNat
      / (nTargetTimespan % (2 ^ 64 : Int)).toNat
    let (s, e) := normUp scaled nExponent
    let (s, e) := normDown s e
    let e := if 32 < e then 32 else e
    let e := if e < 1 then 1 else e
    let nNewBits :=
      if s / 2 ^ 23 % 2 = 1 then (e + 1) * 2 ^ 24 + s / 2 ^ 8 % 2 ^ 23
      else e * 2 ^ 24 + s % 2 ^ 23
    if targetExceedsLimit (CompactToBig nNewBits) params.powLimit then
      BigToCompact params.powLimit
    else nNewBits

/-- `GetNextWorkRequired` from `src/src/consensus/pouw.cpp`: genesis falls
back to the expanded `powLimit`; `fPowNoRetargeting` freezes the previous
`nBits`; on networks allowing min-difficulty blocks a header more than
`2 × targetSpacing` after its parent gets the minimum difficulty, and
otherwise the walk-back recovers the pre-gap `nBits`; off retarget
boundaries the previous `nBits` is kept, and at a boundary the timespan-based
recalculation runs from the block `interval − 1` predecessors back. -/
def GetNextWorkRequired (chain : List BlockIndexNode) (pblock : Option BlockHeader)
    (params : ChainParams) : Nat :=
  match chain with
  | [] => BigToCompact params.powLimit
  | last :: prevs =>
    if params.fPowNoRetargeting then last.nBits
    else
      let interval := params.difficultyAdjustmentInterval
      let nextHeight := last.nHeight + 1
      if params.fAllowMinDifficultyBlocks ∧ pblock.isSome then
        match pblock with
        | none => last.nBits
        | some hdr =>
          if last.nTime + params.nPowTargetSpacing * 2 < hdr.nTime then
            BigToCompact params.powLimit
          else walkBack interval (BigToCompact params.powLimit) (last :: prevs)
      else
        if nextHeight % interval ≠ 0 then last.nBits
        else
          match (last :: prevs).drop (interval - 1) with
          | [] => last.nBits
          | firstB :: _ => CalculateNextWorkRequired last firstB.nTime params

/-- The spec's description of the min-difficulty walk-back (§4.C step 3):
from the tip, skip the consecutive run of min-difficulty blocks and land on
the last "real" `nBits`.  `SkipsToReal interval minBits chain bits` holds
when the walk the spec describes, started at the head of `chain`, yields
`bits`; every skipped block must sit off a retarget boundary, matching the
code's loop guard. -/
inductive SkipsToReal (interval minBits : Nat) : List BlockIndexNode → Nat → Prop
  | found (b : BlockIndexNode) (rest : List BlockIndexNode) :
      b.nBits ≠ minBits → SkipsToReal interval minBits (b :: rest) b.nBits
  | skip (b : BlockIndexNode) (p : BlockIndexNode) (rest : List BlockIndexNode) (bits : Nat) :
      b.nBits = minBits → b.nHeight % interval ≠ 0 →
      SkipsToReal interval minBits (p :: rest) bits →
      SkipsToReal interval minBits (b :: p :: rest) bits

/-- The PoUW commitment magic bytes `"SHRW"`. -/
def pouwMagic : List Nat := [83, 72, 82, 87]

/-- The `OP_RETURN` opcode byte. -/
def OP_RETURN : Nat := 0x6a

/-- A transaction input: all the extractor reads is `scriptSig`. -/
structure TxIn where
  scriptSig : List Nat

/-- A transaction output: all the extractor reads is `scriptPubKey`. -/
structure TxOut where
  scriptPubKey : List Nat

/-- A transaction.  `isCoinBase` — Modelled from the spec: `IsCoinBase()` is
declared in the core transaction header, absent from the snapshot; the spec
(§3) only requires that the coinbase be recognizable as `vtx[0]`, so the
verdict is carried as a field. -/
structure Transaction where
  vin : List TxIn
  vout : List TxOut
  isCoinBase : Bool

/-- A block as read by `VerifyUsefulWork`: the previous-block hash from the
header (32 little-endian bytes held as a `Nat`) and the transaction list. -/
structure Block where
  hashPrevBlock : Nat
  vtx : List Transaction

/-- The scriptSig scan of `ExtractPoUWCommitment`: slide over the script one
byte at a time while at least 36 bytes remain, and return the 32 bytes after
the first occurrence of the magic. -/
def scanMagic : List Nat → Option (List Nat)
  | [] => none
  | b :: rest =>
    if 36 ≤ (b :: rest).length ∧ (b :: rest).take 4 = pouwMagic then
      some (((b :: rest).drop 4).take 32)
    else scanMagic rest

/-- The scriptPubKey scan of `ExtractPoUWCommitment`: look for `OP_RETURN`
while at least 37 bytes remain, optionally skip one push opcode of at most
75, then demand the magic and 32 payload bytes. -/
def scanOutScript : List Nat → Option (List Nat)
  | [] => none
  | b :: rest =>
    if 37 ≤ (b :: rest).length then
      if b = OP_RETURN then
        let cand :=
          match rest with
          | [] => rest
          | y :: ys => if y ≤ 75 then ys else rest
        if 36 ≤ cand.length ∧ cand.take 4 = pouwMagic then some ((cand.drop 4).take 32)
        else scanOutScript rest
      else scanOutScript rest
    else none

/-- Scan the coinbase outputs in order for an `OP_RETURN` commitment. -/
def scanOuts : List TxOut → Option (List Nat)
  | [] => none
  | o :: os =>
    match scanOutScript o.scriptPubKey with
    | some c => some c
    | none => scanOuts os

/-- `ExtractPoUWCommitment` from `src/src/consensus/pouw.cpp`: the coinbase's
first input's scriptSig is scanned first, then each output's scriptPubKey;
the first occurrence wins. -/
def ExtractPoUWCommitment (coinbase : Transaction) : Option (List Nat) :=
  match coinbase.vin with
  | [] => none
  | vin0 :: _ =>
    match scanMagic vin0.scriptSig with
    | some c => some c
    | none => scanOuts coinbase.vout

/-- The byte-transition count of `VerifyUsefulWork` (`uniqueBytes`): the
number of indices `i ≥ 1` with `c[i] ≠ c[i-1]`. -/
def byteTransitions : List Nat → Nat
  | [] => 0
  | [_] => 0
  | a :: b :: rest => (if b ≠ a then 1 else 0) + byteTransitions (b :: rest)

/-- Byte `i` of the previous-block hash value. -/
def prevByte (prevHash i : Nat) : Nat := byteAt prevHash i

/-- The 32-bit binding word of `VerifyUsefulWork`: OR of
`(commitment[i] XOR prevHash[i]) << (8 i)` for `i < 4`; the shifted bytes are
disjoint, so the OR is a sum. -/
def bindingWord (c : List Nat) (prevHash : Nat) : Nat :=
  (c.getD 0 0 ^^^ prevByte prevHash 0) +
    (c.getD 1 0 ^^^ prevByte prevHash 1) * 2 ^ 8 +
    (c.getD 2 0 ^^^ prevByte prevHash 2) * 2 ^ 16 +
    (c.getD 3 0 ^^^ prevByte prevHash 3) * 2 ^ 24

/-- The little-endian bytes of the previous-block hash, for the final
32-byte `memcmp` against the commitment. -/
def prevHashBytes (prevHash : Nat) : List Nat :=
  (List.range 32).map (prevByte prevHash)

/-- `VerifyUsefulWork` from `src/src/consensus/pouw.cpp`: require a coinbase
at `vtx[0]`; exempt the genesis block; without a commitment accept exactly on
networks with `fPoUWOptional` or, as a regtest proxy, `fPowNoRetargeting`;
with a commitment require it non-zero, with at least 8 byte transitions, a
binding XOR word that is neither 0 nor `0xFFFFFFFF`, and not verbatim equal
to the previous block hash. -/
def VerifyUsefulWork (block : Block) (params : ChainParams) : Bool :=
  match block.vtx with
  | [] => false
  | coinbase :: _ =>
    if ¬ coinbase.isCoinBase then false
    else if block.hashPrevBlock = 0 then true
    else
      match ExtractPoUWCommitment coinbase with
      | none => params.fPoUWOptional || params.fPowNoRetargeting
      | some c =>
        if c.all (· = 0) then false
        else if byteTransitions c < 8 then false
        else if bindingWord c block.hashPrevBlock = 0
            ∨ bindingWord c block.hashPrevBlock = 0xFFFFFFFF then false
        else if c = prevHashBytes block.hashPrevBlock then false
        else true

/-- `ClaimStatus` from economics/ubi. -/
inductive ClaimStatus where
  | Pending
  | Valid
  | InvalidProof
  | DoubleClaim
  | IdentityNotFound
  | EpochExpired
  | EpochNotComplete
  | PoolEmpty
deriving DecidableEq, Repr

/-- `ProofType` tags from the identity module; only `UBIClaim` is inspected
by the distributor, every other tag is rejected alike. -/
inductive ProofType where
  | UBIClaim
  | OtherProof
deriving DecidableEq, Repr

/-- A zero-knowledge proof as the distributor sees it.  The identity module
is outside the snapshot, so `isValid` carries the verdict of the structural
`IsValid()` check and `publicInputs` the field-element vector
(field elements held as `Nat`). -/
structure ZKProof where
  isValid : Bool
  ptype : ProofType
  publicInputs : List Nat
deriving DecidableEq, Repr

/-- Modelled from the spec: `FieldElement::FromBytes` (crypto/field, absent
from the snapshot) maps a 32-byte hash to a field element; only equality
with proof public inputs is ever observed, so it is kept as the numeric
identity. -/
def fieldFromBytes (h : Nat) : Nat := h

/-- Modelled from the spec: the `FieldElement(uint64_t)` constructor used
for the epoch public input; kept as the numeric identity, matching
`fieldFromBytes`. -/
def fieldOfEpoch (e : Nat) : Nat := e

/-- A nullifier: a 32-byte hash together with the epoch it belongs to;
equality is over both fields (spec §3). -/
structure Nullifier where
  hash : Nat
  nEpoch : Nat
deriving DecidableEq, Repr

/-- Modelled from the spec: the `std::set<Nullifier>` comparator (declared
in the absent header) — lexicographic on (hash, epoch). -/
def nullLt (a b : Nullifier) : Bool :=
  decide (a.hash < b.hash ∨ (a.hash = b.hash ∧ a.nEpoch < b.nEpoch))

/-- Ordered insertion into the nullifier set (`std::set::insert`): no-op on
an element already present. -/
def nfInsert (n : Nullifier) : List Nullifier → List Nullifier
  | [] => [n]
  | x :: xs =>
    if n = x then x :: xs
    else if nullLt n x then n :: x :: xs
    else x :: nfInsert n xs

/-- Membership in the nullifier set (`usedNullifiers.find != end`). -/
def nfMem (n : Nullifier) : List Nullifier → Bool
  | [] => false
  | x :: xs => if n = x then true else nfMem n xs

/-- A UBI claim as processed by the distributor; the recipient hash and the
proof bytes are carried opaquely. -/
structure UBIClaim where
  epoch : Nat
  nullifier : Nullifier
  recipient : Nat
  proof : ZKProof
  amount : Int
  submitHeight : Int
  status : ClaimStatus
deriving DecidableEq, Repr

/-- The UBI constants from economics/ubi.h (absent from the snapshot; §6
lists them as per-network parameters without numeric values), carried as an
explicit context. -/
structure UBIConsts where
  epochBlocks : Nat
  claimWindow : Int
  graceEpochs : Nat
  minIdentities : Nat
  maxUbiPerPerson : Int

/-- `EpochUBIPool`: the per-epoch accumulator record. -/
structure EpochUBIPool where
  epoch : Nat
  endHeight : Int
  claimDeadline : Int
  totalPool : Int
  eligibleCount : Nat
  amountPerPerson : Int
  amountClaimed : Int
  claimCount : Nat
  isFinalized : Bool
  usedNullifiers : List Nullifier
deriving DecidableEq, Repr

/-- `EpochUBIPool::Finalize`: record the identity count, set the per-person
amount to `min(totalPool / identityCount, MAX_UBI_PER_PERSON)` when enough
identities exist (C++ truncating division) and to zero otherwise, and mark
the pool finalized. -/
def poolFinalize (consts : UBIConsts) (pool : EpochUBIPool) (identityCount : Nat) :
    EpochUBIPool :=
  { pool with
    eligibleCount := identityCount,
    amountPerPerson :=
      if consts.minIdentities ≤ identityCount then
        min (Int.tdiv pool.totalPool identityCount) consts.maxUbiPerPerson
      else 0,
    isFinalized := true }

/-- `EpochUBIPool::RecordClaim`: insert the nullifier, add the amount, and
bump the claim count. -/
def poolRecordClaim (pool : EpochUBIPool) (n : Nullifier) (amount : Int) : EpochUBIPool :=
  { pool with
    usedNullifiers := nfInsert n pool.usedNullifiers,
    amountClaimed := pool.amountClaimed + amount,
    claimCount := pool.claimCount + 1 }

/-- `EpochUBIPool::AcceptingClaims`: finalized and not past the claim
deadline. -/
def poolAcceptingClaims (pool : EpochUBIPool) (currentHeight : Int) : Bool :=
  if ¬ pool.isFinalized then false else decide (currentHeight ≤ pool.claimDeadline)

/-- Lookup in the `std::map<EpochId, EpochUBIPool>`, embedded as a
key-sorted association list. -/
def mapFind (e : Nat) : List (Nat × EpochUBIPool) → Option EpochUBIPool
  | [] => none
  | (k, p) :: xs => if k = e then some p else mapFind e xs

/-- Insert-or-replace in the key-sorted association list (`pools_[e] = p`). -/
def mapInsert (e : Nat) (v : EpochUBIPool) : List (Nat × EpochUBIPool) →
    List (Nat × EpochUBIPool)
  | [] => [(e, v)]
  | (k, p) :: xs =>
    if e = k then (e, v) :: xs
    else if e < k then (e, v) :: (k, p) :: xs
    else (k, p) :: mapInsert e v xs

/-- `UBIDistributor` state: the current epoch counter, the pool map, and the
global distribution totals. -/
structure UBIDistributor where
  currentEpoch : Nat
  pools : List (Nat × EpochUBIPool)
  totalDistributed : Int
  totalClaims : Nat
deriving DecidableEq, Repr

/-- A freshly constructed distributor: no pools, zero counters. -/
def initUBIDistributor : UBIDistributor :=
  { currentEpoch := 0, pools := [], totalDistributed := 0, totalClaims := 0 }

/-- Modelled from the spec: `EpochEndHeight` (economics/ubi.h, absent from
the snapshot) — the last height of epoch `e`, i.e.
`(e + 1) · EPOCH_BLOCKS − 1` (§3: `epoch = height / EPOCH_BLOCKS`; glossary:
the claim window starts at `endHeight`). -/
def epochEndHeight (consts : UBIConsts) (e : Nat) : Int :=
  ((e + 1) * consts.epochBlocks : Nat) - 1

/-- The default-constructed pool as `GetOrCreatePool` fills it: `epoch` and
`endHeight` set, every other field zero/false (spec §4.F). -/
def newPool (consts : UBIConsts) (e : Nat) : EpochUBIPool :=
  { epoch := e, endHeight := epochEndHeight consts e, claimDeadline := 0, totalPool := 0,
    eligibleCount := 0, amountPerPerson := 0, amountClaimed := 0, claimCount := 0,
    isFinalized := false, usedNullifiers := [] }

/-- `UBIDistributor::AddBlockReward`: advance `currentEpoch` to the height's
epoch and add the amount to that epoch's pool, creating it if needed. -/
def AddBlockReward (consts : UBIConsts) (d : UBIDistributor) (height : Nat) (amount : Int) :
    UBIDistributor :=
  let epoch := height / consts.epochBlocks
  let pool :=
    match mapFind epoch d.pools with
    | some p => p
    | none => newPool consts epoch
  { d with
    currentEpoch := epoch,
    pools := mapInsert epoch { pool with totalPool := pool.totalPool + amount } d.pools }

/-- `UBIDistributor::FinalizeEpoch`: a no-op when the pool is absent;
otherwise set `endHeight` and
`claimDeadline = endHeight + UBI_CLAIM_WINDOW + UBI_GRACE_EPOCHS · EPOCH_BLOCKS`
and run `Finalize`. -/
def FinalizeEpoch (consts : UBIConsts) (d : UBIDistributor) (epoch : Nat)
    (identityCount : Nat) : UBIDistributor :=
  match mapFind epoch d.pools with
  | none => d
  | some pool =>
    let pool := { pool with
      endHeight := epochEndHeight consts epoch,
      claimDeadline := epochEndHeight consts epoch + consts.claimWindow +
        (consts.graceEpochs * consts.epochBlocks : Nat) }
    { d with pools := mapInsert epoch (poolFinalize consts pool identityCount) d.pools }

/-- The check cascade of `UBIDistributor::ProcessClaim` for an existing
pool, in its source order: finalization, claim window, non-empty pool,
nullifier freshness, then the proof checks (structural validity, type,
public-input count, identity root, epoch, circuit verification via the
external verifier `verify`).  Returns the first failing status, or `Valid`
when every check passes — the C++ early returns yield exactly this first
failing status. -/
def claimStatusFor (verify : ZKProof → Bool) (pool : EpochUBIPool) (claim : UBIClaim)
    (identityTreeRoot : Nat) (currentHeight : Int) : ClaimStatus :=
  if ¬ pool.isFinalized then ClaimStatus.EpochNotComplete
  else if ¬ poolAcceptingClaims pool currentHeight then ClaimStatus.EpochExpired
  else if pool.amountPerPerson = 0 then ClaimStatus.PoolEmpty
  else if nfMem claim.nullifier pool.usedNullifiers then ClaimStatus.DoubleClaim
  else if ¬ claim.proof.isValid then ClaimStatus.InvalidProof
  else if claim.proof.ptype ≠ ProofType.UBIClaim then ClaimStatus.InvalidProof
  else if claim.proof.publicInputs.length < 3 then ClaimStatus.InvalidProof
  else if claim.proof.publicInputs.getD 0 0 ≠ fieldFromBytes identityTreeRoot then
    ClaimStatus.InvalidProof
  else if claim.proof.publicInputs.getD 2 0 ≠ fieldOfEpoch claim.epoch then
    ClaimStatus.InvalidProof
  else if ¬ verify claim.proof then ClaimStatus.InvalidProof
  else ClaimStatus.Valid

/-- `UBIDistributor::ProcessClaim`: stamp `submitHeight`, then run the check
cascade (`claimStatusFor`); a missing pool yields `EpochNotComplete`.  Any
failing status is written into the claim and returned with the state
untouched (the C++ early returns); on `Valid` the claim's amount and status
are set, the claim is recorded in the pool, and the global totals are
bumped.  Returns the status together with the updated distributor and claim. -/
def ProcessClaim (verify : ZKProof → Bool) (d : UBIDistributor) (claim : UBIClaim)
    (identityTreeRoot : Nat) (currentHeight : Int) :
    ClaimStatus × UBIDistributor × UBIClaim :=
  match mapFind claim.epoch d.pools with
  | none =>
    (ClaimStatus.EpochNotComplete, d,
      { claim with submitHeight := currentHeight, status := ClaimStatus.EpochNotComplete })
  | some pool =>
    match claimStatusFor verify pool claim identityTreeRoot currentHeight with
    | ClaimStatus.Valid =>
      (ClaimStatus.Valid,
        { d with
          pools := mapInsert claim.epoch
            (poolRecordClaim pool claim.nullifier pool.amountPerPerson) d.pools,
          totalDistributed := d.totalDistributed + pool.amountPerPerson,
          totalClaims := d.totalClaims + 1 },
        { claim with
          submitHeight := currentHeight,
          amount := pool.amountPerPerson,
          status := ClaimStatus.Valid })
    | st => (st, d, { claim with submitHeight := currentHeight, status := st })

/-- The check cascade of `UBIDistributor::VerifyClaim` for an existing
pool, in its source order: finalization, claim window, nullifier freshness,
and the same proof checks as `ProcessClaim`.  The source has no `PoolEmpty`
check here. -/
def verifyClaimChecks (verify : ZKProof → Bool) (pool : EpochUBIPool) (claim : UBIClaim)
    (identityTreeRoot : Nat) (currentHeight : Int) : Bool :=
  if ¬ pool.isFinalized then false
  else if ¬ poolAcceptingClaims pool currentHeight then false
  else if nfMem claim.nullifier pool.usedNullifiers then false
  else if ¬ claim.proof.isValid then false
  else if claim.proof.ptype ≠ ProofType.UBIClaim then false
  else if claim.proof.publicInputs.length < 3 then false
  else if claim.proof.publicInputs.getD 0 0 ≠ fieldFromBytes identityTreeRoot then false
  else if claim.proof.publicInputs.getD 2 0 ≠ fieldOfEpoch claim.epoch then false
  else verify claim.proof

/-- `UBIDistributor::VerifyClaim`: the read-only pre-screen — pool
existence followed by the check cascade, with no state update and no
`submitHeight` write. -/
def VerifyClaim (verify : ZKProof → Bool) (d : UBIDistributor) (claim : UBIClaim)
    (identityTreeRoot : Nat) (currentHeight : Int) : Bool :=
  match mapFind claim.epoch d.pools with
  | none => false
  | some pool => verifyClaimChecks verify pool claim identityTreeRoot currentHeight

/-- Little-endian byte encoding of the low `k` bytes of `v`
(`data.push_back((v >> (i*8)) & 0xFF)` for `i < k`). -/
def le : Nat → Nat → List Nat
  | 0, _ => []
  | k + 1, v => v % 256 :: le k (v / 256)

/-- Little-endian encoding of a signed `8·k`-bit machine integer: the bytes
of its two's-complement pattern. -/
def leI (k : Nat) (v : Int) : List Nat := le k ((v % ((2 ^ (8 * k) : Nat) : Int)).toNat)

/-- Read `k` little-endian bytes off the front of the stream, returning the
assembled value and the rest (`x |= data[offset++] << (i*8)`). -/
def rdLE : Nat → List Nat → Option (Nat × List Nat)
  | 0, d => some (0, d)
  | _ + 1, [] => none
  | k + 1, b :: d =>
    match rdLE k d with
    | none => none
    | some (v, r) => some (b + 256 * v, r)

/-- Reinterpret an `8·k`-bit pattern as a signed machine integer. -/
def decSigned (k n : Nat) : Int :=
  if n < 2 ^ (8 * k - 1) then (n : Int) else (n : Int) - ((2 ^ (8 * k) : Nat) : Int)

/-- The serialized form of one nullifier inside a pool: just its 32-byte
hash (the epoch is **not** written). -/
def serNull (n : Nullifier) : List Nat := le 32 n.hash

/-- The serialized form of one pool entry of `UBIDistributor::Serialize`:
epoch id, totalPool, eligibleCount, amountPerPerson, amountClaimed,
claimCount, isFinalized, endHeight, claimDeadline, nullifier count and the
nullifier hashes, in stream order. -/
def serPool (e : Nat) (p : EpochUBIPool) : List Nat :=
  le 8 e ++ leI 8 p.totalPool ++ le 4 p.eligibleCount ++ leI 8 p.amountPerPerson ++
    leI 8 p.amountClaimed ++ le 4 p.claimCount ++ [if p.isFinalized then 1 else 0] ++
    leI 4 p.endHeight ++ leI 4 p.claimDeadline ++ le 4 p.usedNullifiers.length ++
    (p.usedNullifiers.map serNull).flatten

/-- `UBIDistributor::Serialize`: version byte `0x01`, the current epoch, the
pool count, then each pool in map order. -/
def UBISerialize (d : UBIDistributor) : List Nat :=
  1 :: (le 8 d.currentEpoch ++ le 4 d.pools.length ++
    (d.pools.map (fun ep => serPool ep.1 ep.2)).flatten)

/-- The nullifier-reading loop of `UBIDistributor::Deserialize`: read `n`
32-byte hashes and insert each as a nullifier of epoch `e` into the set. -/
def rdNulls (e : Nat) : Nat → List Nullifier → List Nat → Option (List Nullifier × List Nat)
  | 0, acc, d => some (acc, d)
  | n + 1, acc, d =>
    match rdLE 32 d with
    | none => none
    | some (h, r) => rdNulls e n (nfInsert ⟨h, e⟩ acc) r

/-- The per-pool parsing step of `UBIDistributor::Deserialize`: enforce the
53-byte fixed part, read every field, cap the nullifier count at 1 000 000,
check the remaining length, and read the nullifier hashes. -/
def rdPool (d : List Nat) : Option ((Nat × EpochUBIPool) × List Nat) :=
  if d.length < 53 then none
  else
    match rdLE 8 d with
    | none => none
    | some (epochId, d) =>
    match rdLE 8 d with
    | none => none
    | some (tp, d) =>
    match rdLE 4 d with
    | none => none
    | some (ec, d) =>
    match rdLE 8 d with
    | none => none
    | some (app, d) =>
    match rdLE 8 d with
    | none => none
    | some (ac, d) =>
    match rdLE 4 d with
    | none => none
    | some (cc, d) =>
    match d with
    | [] => none
    | finB :: d =>
    match rdLE 4 d with
    | none => none
    | some (eh, d) =>
    match rdLE 4 d with
    | none => none
    | some (cd, d) =>
    match rdLE 4 d with
    | none => none
    | some (nc, d) =>
      if 1000000 < nc then none
      else if d.length < nc * 32 then none
      else
        match rdNulls epochId nc [] d with
        | none => none
        | some (nulls, d) =>
          some ((epochId,
            { epoch := epochId, endHeight := decSigned 4 eh, claimDeadline := decSigned 4 cd,
              totalPool := decSigned 8 tp, eligibleCount := ec,
              amountPerPerson := decSigned 8 app, amountClaimed := decSigned 8 ac,
              claimCount := cc, isFinalized := finB ≠ 0, usedNullifiers := nulls }), d)

/-- The pool-reading loop of `UBIDistributor::Deserialize`: read `n` pools
and store each under its epoch id (`pools_[epochId] = pool`). -/
def rdPools : Nat → List (Nat × EpochUBIPool) → List Nat →
    Option (List (Nat × EpochUBIPool) × List Nat)
  | 0, acc, d => some (acc, d)
  | n + 1, acc, d =>
    match rdPool d with
    | none => none
    | some ((e, p), r) => rdPools n (mapInsert e p acc) r

/-- `UBIDistributor::Deserialize`: reject inputs shorter than 13 bytes or
with a version other than `0x01`; read the current epoch and the pool count
(capped at 10 000); clear the pool map and read each pool.  Mutation of the
receiver is modelled by returning the updated distributor (the distribution
totals are untouched, as in the source). -/
def UBIDeserialize (d0 : UBIDistributor) (data : List Nat) : Option UBIDistributor :=
  if data.length < 13 then none
  else
    match data with
    | [] => none
    | version :: data =>
      if version ≠ 1 then none
      else
        match rdLE 8 data with
        | none => none
        | some (cur, data) =>
        match rdLE 4 data with
        | none => none
        | some (pc, data) =>
          if 10000 < pc then none
          else
            match rdPools pc [] data with
            | none => none
            | some (pools, _) => some { d0 with currentEpoch := cur, pools := pools }

/-! ### Concrete instances for the counterexamples and bug traces -/

/-- Modelled from the spec: mainnet numeric profile (spec §8 S1/S2;
`params.cpp` is absent from the snapshot).  Only the subsidy fields are read
by the theorems that use this profile. -/
def mainParams : ChainParams :=
  { nInitialBlockReward := 5000000000, nSubsidyHalvingInterval := 210000,
    nPowTargetSpacing := 600, nPowTargetTimespan := 1209600,
    difficultyAdjustmentInterval := 2016, powLimit := powLimitMain,
    fPowNoRetargeting := false, fAllowMinDifficultyBlocks := false, fPoUWOptional := false }

/-- A regtest-style profile: PoUW not marked optional, but retargeting
disabled. -/
def regtestLikeParams : ChainParams :=
  { nInitialBlockReward := 5000000000, nSubsidyHalvingInterval := 150,
    nPowTargetSpacing := 600, nPowTargetTimespan := 1209600,
    difficultyAdjustmentInterval := 2016, powLimit := powLimitMain,
    fPowNoRetargeting := true, fAllowMinDifficultyBlocks := false, fPoUWOptional := false }

/-- A non-genesis block whose coinbase carries no PoUW commitment. -/
def noCommitBlock : Block :=
  { hashPrevBlock := 1,
    vtx := [{ vin := [{ scriptSig := [] }], vout := [], isCoinBase := true }] }

/-- A testnet-style profile for the difficulty walk-back: min-difficulty
blocks allowed, retargeting on, adjustment interval 2. -/
def testnetWalkParams : ChainParams :=
  { nInitialBlockReward := 5000000000, nSubsidyHalvingInterval := 210000,
    nPowTargetSpacing := 10, nPowTargetTimespan := 1209600,
    difficultyAdjustmentInterval := 2, powLimit := powLimitMain,
    fPowNoRetargeting := false, fAllowMinDifficultyBlocks := true, fPoUWOptional := false }

/-- A chain whose two newest blocks are min-difficulty, the newest sitting
at a retarget-boundary height; the last real difficulty below the run is
`nBits = 500`. -/
def walkChain : List BlockIndexNode :=
  [{ nHeight := 2, nTime := 1000, nBits := 0x1d00ffff },
    { nHeight := 1, nTime := 990, nBits := 0x1d00ffff },
    { nHeight := 0, nTime := 980, nBits := 500 }]

/-- A header within twice the target spacing of the tip. -/
def walkHeader : BlockHeader := { nTime := 1000 }

/-- A chain whose single newest block is min-difficulty and off the
retarget boundary; the walk-back recovers `nBits = 500`. -/
def walkChainOff : List BlockIndexNode :=
  [{ nHeight := 1, nTime := 990, nBits := 0x1d00ffff },
    { nHeight := 0, nTime := 980, nBits := 500 }]

/-- The conjunction of the six proof checks shared by `ProcessClaim` and
`VerifyClaim`, as one boolean predicate. -/
def proofChecksPass (verify : ZKProof → Bool) (claim : UBIClaim) (identityTreeRoot : Nat) :
    Bool :=
  claim.proof.isValid && (claim.proof.ptype == ProofType.UBIClaim) &&
    decide (3 ≤ claim.proof.publicInputs.length) &&
    (claim.proof.publicInputs.getD 0 0 == fieldFromBytes identityTreeRoot) &&
    (claim.proof.publicInputs.getD 2 0 == fieldOfEpoch claim.epoch) &&
    verify claim.proof

/-- An external verifier that accepts every proof; used by the concrete
traces, standing for the real circuit verifier accepting a genuinely valid
proof. -/
def acceptAll : ZKProof → Bool := fun _ => true

/-- UBI constants used by the concrete traces (the real values live in the
absent economics/ubi.h; the traces only need `MIN_IDENTITIES_FOR_UBI` small
and `MAX_UBI_PER_PERSON` large). -/
def traceConsts : UBIConsts :=
  { epochBlocks := 10, claimWindow := 100, graceEpochs := 2, minIdentities := 2,
    maxUbiPerPerson := 1000000000000 }

/-- Same constants with a min-identity threshold of 5, for a pool finalized
below the threshold. -/
def traceConstsHighMin : UBIConsts :=
  { epochBlocks := 10, claimWindow := 100, graceEpochs := 2, minIdentities := 5,
    maxUbiPerPerson := 1000000000000 }

/-- A proof whose public inputs are `[root = 0, nullifierHash = 99,
epoch = 0]` and which the external verifier accepts. -/
def traceProof : ZKProof :=
  { isValid := true, ptype := ProofType.UBIClaim, publicInputs := [0, 99, 0] }

/-- A claim for epoch 0 with the given nullifier hash (nullifier epoch 0). -/
def traceClaim (h : Nat) : UBIClaim :=
  { epoch := 0, nullifier := { hash := h, nEpoch := 0 }, recipient := 0, proof := traceProof,
    amount := 0, submitHeight := 0, status := ClaimStatus.Pending }

/-- Distributor with 100 units of epoch-0 rewards, finalized for 3
identities — below the threshold of 5, so `amountPerPerson = 0`. -/
def emptyPoolDist : UBIDistributor :=
  FinalizeEpoch traceConstsHighMin
    (AddBlockReward traceConstsHighMin initUBIDistributor 0 100) 0 3

/-- Distributor with 100 units of epoch-0 rewards, finalized for 2
identities: `amountPerPerson = 50`. -/
def fundedDist : UBIDistributor :=
  FinalizeEpoch traceConsts (AddBlockReward traceConsts initUBIDistributor 0 100) 0 2

/-- `fundedDist` after three successful claims with distinct nullifiers, all
reusing the same accepted proof: 150 units paid from a 100-unit pool. -/
def overdrawnDist : UBIDistributor :=
  (ProcessClaim acceptAll
    ((ProcessClaim acceptAll
      ((ProcessClaim acceptAll fundedDist (traceClaim 1) 0 10).2.1)
      (traceClaim 2) 0 10).2.1)
    (traceClaim 3) 0 10).2.1

/-- A claim whose nullifier carries epoch 99 while the claim itself targets
epoch 0; `ProcessClaim` never compares the two. -/
def mismatchedClaim : UBIClaim :=
  { epoch := 0, nullifier := { hash := 7, nEpoch := 99 }, recipient := 0, proof := traceProof,
    amount := 0, submitHeight := 0, status := ClaimStatus.Pending }

/-- `fundedDist` after accepting `mismatchedClaim`: pool 0's nullifier set
holds an epoch-99 nullifier that serialization will flatten to epoch 0. -/
def mismatchedDist : UBIDistributor :=
  (ProcessClaim acceptAll fundedDist mismatchedClaim 0 10).2.1

/-- A finalized, funded pool whose nullifier set already contains the
nullifier `(1, 0)`. -/
def usedPool : EpochUBIPool :=
  { epoch := 0, endHeight := 9, claimDeadline := 129, totalPool := 100, eligibleCount := 2,
    amountPerPerson := 50, amountClaimed := 50, claimCount := 1, isFinalized := true,
    usedNullifiers := [{ hash := 1, nEpoch := 0 }] }

/-- A distributor holding just `usedPool` under epoch 0. -/
def usedPoolDist : UBIDistributor :=
  { currentEpoch := 0, pools := [(0, usedPool)], totalDistributed := 50, totalClaims := 1 }

/-- Bounds under which a pool round-trips through the persistent format:
every field within its machine-integer range, the nullifier set sorted by
the comparator with at most 1 000 000 entries, and — the condition a
reachable state can violate — every nullifier's epoch equal to the pool's. -/
def WFPool (e : Nat) (p : EpochUBIPool) : Prop :=
  p.epoch = e ∧ e < 2 ^ 64 ∧
  0 ≤ p.totalPool ∧ p.totalPool < 2 ^ 63 ∧
  p.eligibleCount < 2 ^ 32 ∧
  0 ≤ p.amountPerPerson ∧ p.amountPerPerson < 2 ^ 63 ∧
  0 ≤ p.amountClaimed ∧ p.amountClaimed < 2 ^ 63 ∧
  p.claimCount < 2 ^ 32 ∧
  0 ≤ p.endHeight ∧ p.endHeight < 2 ^ 31 ∧
  0 ≤ p.claimDeadline ∧ p.claimDeadline < 2 ^ 31 ∧
  p.usedNullifiers.length ≤ 1000000 ∧
  List.Pairwise (fun a b => nullLt a b = true) p.usedNullifiers ∧
  ∀ n ∈ p.usedNullifiers, n.hash < 2 ^ 256 ∧ n.nEpoch = e

/-- Bounds under which a distributor state round-trips through the
persistent format. -/
def WFDistributor (d : UBIDistributor) : Prop :=
  d.currentEpoch < 2 ^ 64 ∧ d.pools.length ≤ 10000 ∧
  List.Pairwise (fun a b => a.1 < b.1) d.pools ∧
  ∀ ep ∈ d.pools, WFPool ep.1 ep.2

instance (e : Nat) (p : EpochUBIPool) : Decidable (WFPool e p) := by
  unfold WFPool; infer_instance

instance (d : UBIDistributor) : Decidable (WFDistributor d) := by
  unfold WFDistributor; infer_instance

/-! ### Helper lemmas -/

theorem byteAt_zero (i : Nat) : byteAt 0 i = 0 := by
  simp [byteAt]

theorem exceedsGo_zero_left (p : Nat) : ∀ i, exceedsGo 0 p i = false := by
  intro i
  induction i with
  | zero => simp [exceedsGo, byteAt_zero]
  | succ n ih => simp [exceedsGo, byteAt_zero, ih]

theorem CompactToBig_sign (c : Nat) (h : c / 2 ^ 23 % 2 = 1) : CompactToBig c = 0 := by
  unfold CompactToBig
  rw [if_pos h]

/-! ### C1 — compact-target round-trips -/

theorem byteAt_eq (t i : Nat) : byteAt t i = t / 2 ^ (8 * i) % 256 := rfl

theorem byteAt_zero2 (t i : Nat) (h : t < 2 ^ (8 * i)) : byteAt t i = 0 := by
  unfold byteAt
  rw [Nat.div_eq_of_lt h]

theorem byteAt_div (t k i : Nat) : byteAt (t / 2 ^ (8 * k)) i = byteAt t (k + i) := by
  unfold byteAt
  rw [Nat.div_div_eq_div_mul, ← pow_add]
  ring_nf

theorem digitsZero : ∀ (k h : Nat), h < 2 ^ (8 * k) → (∀ i, i < k → byteAt h i = 0) → h = 0 := by
  intro k
  induction k with
  | zero => intro h hlt _; simpa using hlt
  | succ n ih =>
    intro h hlt hz
    have h0 : h % 256 = 0 := by
      have := hz 0 (by omega)
      unfold byteAt at this
      simpa using this
    have hd : h / 256 = 0 := by
      apply ih
      · have : h < 2 ^ (8 * n) * 256 := by
          calc h < 2 ^ (8 * (n + 1)) := hlt
          _ = 2 ^ (8 * n) * 256 := by
            rw [show 8 * (n+1) = 8 * n + 8 by ring, pow_add]; norm_num
        omega
      · intro i hi
        have hz2 := hz (i + 1) (by omega)
        unfold byteAt at hz2 ⊢
        rw [Nat.div_div_eq_div_mul]
        rw [show 8 * (i + 1) = 8 * i + 8 by ring, pow_add] at hz2
        rw [show (256 : Nat) * 2 ^ (8 * i) = 2 ^ (8 * i) * 2 ^ 8 by ring]
        exact hz2
    omega

theorem mod_mul_digit (t K n : Nat) :
    t % (K * n) = (t / K % n) * K + t % K := by
  rw [Nat.mod_mul]
  ring

theorem findMsbAux_none (t : Nat) :
    ∀ n, findMsbAux t n = none ↔ ∀ j, j < n → byteAt t j = 0 := by
  intro n
  induction n with
  | zero => simp [findMsbAux]
  | succ k ih =>
    unfold findMsbAux
    constructor
    · intro h j hj
      split_ifs at h with hb
      rcases Nat.lt_succ_iff_lt_or_eq.mp hj with hj2 | hj2
      · exact (ih.mp h) j hj2
      · subst hj2; simpa using hb
    · intro h
      rw [if_neg (by simpa using h k (by omega))]
      exact ih.mpr fun j hj => h j (by omega)

theorem findMsbAux_some (t : Nat) :
    ∀ n m, findMsbAux t n = some m →
      m < n ∧ byteAt t m ≠ 0 ∧ ∀ j, m < j → j < n → byteAt t j = 0 := by
  intro n
  induction n with
  | zero => simp [findMsbAux]
  | succ k ih =>
    intro m h
    unfold findMsbAux at h
    split_ifs at h with hb
    · cases h
      exact ⟨by omega, hb, fun j hj hj2 => by omega⟩
    · obtain ⟨h1, h2, h3⟩ := ih m h
      refine ⟨by omega, h2, fun j hj hj2 => ?_⟩
      rcases Nat.lt_succ_iff_lt_or_eq.mp hj2 with hj3 | hj3
      · exact h3 j hj hj3
      · subst hj3; simpa using hb

theorem findMsbAux_eq_some (t : Nat) :
    ∀ n m, m < n → byteAt t m ≠ 0 → (∀ j, m < j → j < n → byteAt t j = 0) →
      findMsbAux t n = some m := by
  intro n
  induction n with
  | zero => omega
  | succ k ih =>
    intro m hm hb hz
    unfold findMsbAux
    rcases Nat.lt_succ_iff_lt_or_eq.mp hm with hm2 | hm2
    · rw [if_neg (by simpa using hz k (by omega) (by omega))]
      exact ih m hm2 hb fun j hj hj2 => hz j hj (by omega)
    · subst hm2
      rw [if_pos hb]

theorem lt_of_findMsb (t m : Nat) (ht : t < 2 ^ 256) (hm : findMsb t = some m) :
    t < 2 ^ (8 * (m + 1)) := by
  obtain ⟨hm32, hb, hz⟩ := findMsbAux_some t 32 m hm
  have hhi : t / 2 ^ (8 * (m + 1)) = 0 := by
    apply digitsZero (32 - (m + 1))
    · apply Nat.div_lt_of_lt_mul
      calc t < 2 ^ 256 := ht
      _ = 2 ^ (8 * (m + 1)) * 2 ^ (8 * (32 - (m + 1))) := by
        rw [← pow_add]
        congr 1
        omega
    · intro i hi
      rw [byteAt_div]
      exact hz (m + 1 + i) (by omega) (by omega)
  have hK : 0 < 2 ^ (8 * (m + 1)) := Nat.pos_pow_of_pos _ (by omega)
  have hdm := Nat.div_add_mod t (2 ^ (8 * (m + 1)))
  have hmod := Nat.mod_lt t hK
  rw [hhi, Nat.mul_zero, Nat.zero_add] at hdm
  omega

theorem ge_of_findMsb (t m : Nat) (hm : findMsb t = some m) : 2 ^ (8 * m) ≤ t := by
  obtain ⟨hm32, hb, hz⟩ := findMsbAux_some t 32 m hm
  by_contra h
  exact hb (byteAt_zero2 t m (by omega))

theorem findMsb_exists (t : Nat) (ht : t < 2 ^ 256) (hne : t ≠ 0) :
    ∃ m, findMsb t = some m := by
  cases hf : findMsb t with
  | some m => exact ⟨m, rfl⟩
  | none =>
    exact absurd (digitsZero 32 t ht fun i hi => (findMsbAux_none t 32).mp hf i hi) hne

theorem leWord_eq (t : Nat) : ∀ k, leWord t k = t % 2 ^ (8 * k) := by
  intro k
  induction k with
  | zero => simp [leWord, Nat.mod_one]
  | succ n ih =>
    unfold leWord
    rw [ih, show (256 : Nat) ^ n = 2 ^ (8 * n) by rw [show (256 : Nat) = 2 ^ 8 by norm_num, ← pow_mul],
      show 8 * (n + 1) = 8 * n + 8 by ring, pow_add,
      mod_mul_digit t (2 ^ (8 * n)) (2 ^ 8)]
    unfold byteAt
    norm_num

theorem CompactToBig_parts (s w : Nat) (hs : s ≤ 255) (hw : w < 2 ^ 23) :
    CompactToBig (s * 2 ^ 24 + w) =
      if s ≤ 3 then w / 2 ^ (8 * (3 - s))
      else if s ≤ 32 then w * 2 ^ (8 * (s - 3))
      else 0 := by
  have hc : s * 2 ^ 24 + w = 2 * s * 2 ^ 23 + w := by ring
  have h1 : (s * 2 ^ 24 + w) / 2 ^ 24 % 256 = s := by
    rw [show s * 2 ^ 24 + w = 2 ^ 24 * s + w by ring, Nat.mul_add_div (by norm_num),
      Nat.div_eq_of_lt (by omega), Nat.add_zero, Nat.mod_eq_of_lt (by omega)]
  have h2 : (s * 2 ^ 24 + w) % 2 ^ 23 = w := by
    rw [hc, show 2 * s * 2 ^ 23 + w = 2 ^ 23 * (2 * s) + w by ring, Nat.mul_add_mod,
      Nat.mod_eq_of_lt hw]
  have h3 : (s * 2 ^ 24 + w) / 2 ^ 23 % 2 = 0 := by
    rw [hc, show 2 * s * 2 ^ 23 + w = 2 ^ 23 * (2 * s) + w by ring,
      Nat.mul_add_div (by norm_num), Nat.div_eq_of_lt hw, Nat.add_zero,
      Nat.mul_mod_right]
  unfold CompactToBig
  dsimp only
  simp only [h1, h2, h3]
  split_ifs <;> first | rfl | omega | exact (by assumption : False).elim

theorem BigToCompact_small (t m : Nat) (hm : findMsb t = some m) (hm2 : m ≤ 2)
    (ht : t < 2 ^ 256) :
    BigToCompact t = (m + 1) * 2 ^ 24 + t * 2 ^ (8 * (2 - m)) := by
  unfold BigToCompact
  rw [hm]
  dsimp only
  have hlt := lt_of_findMsb t m ht hm
  rw [if_pos (by omega : m + 1 ≤ 3), leWord_eq, Nat.mod_eq_of_lt hlt,
    show 3 - (m + 1) = 2 - m from by omega]

theorem BigToCompact_big (t m : Nat) (hm : findMsb t = some m) (hm3 : 3 ≤ m)
    (ht : t < 2 ^ 256) :
    BigToCompact t =
      if 2 ^ 23 ≤ t / 2 ^ (8 * (m - 2)) then
        (m + 2) * 2 ^ 24 + t / 2 ^ (8 * (m - 2)) / 2 ^ 8
      else (m + 1) * 2 ^ 24 + t / 2 ^ (8 * (m - 2)) := by
  unfold BigToCompact
  rw [hm]
  dsimp only
  have hv : t / 2 ^ (8 * (m - 2)) < 2 ^ 24 := by
    have hlt := lt_of_findMsb t m ht hm
    apply Nat.div_lt_of_lt_mul
    calc t < 2 ^ (8 * (m + 1)) := hlt
    _ = 2 ^ (8 * (m - 2)) * 2 ^ 24 := by
      rw [← pow_add]
      congr 1
      omega
  rw [if_neg (by omega : ¬ (m + 1 ≤ 3)), Nat.mod_eq_of_lt hv]

theorem topByte_small_bound (t m : Nat)
    (ht2 : t < 2 ^ (8 * (m + 1))) (htop : byteAt t m < 128) : t < 2 ^ (8 * m + 7) := by
  have hdm := Nat.div_add_mod t (2 ^ (8 * m))
  have hmod : t % 2 ^ (8 * m) < 2 ^ (8 * m) := Nat.mod_lt _ (Nat.pos_pow_of_pos _ (by omega))
  have hdiv : t / 2 ^ (8 * m) < 256 := by
    apply Nat.div_lt_of_lt_mul
    calc t < 2 ^ (8 * (m + 1)) := ht2
    _ = 2 ^ (8 * m) * 256 := by
      rw [show 8 * (m + 1) = 8 * m + 8 by ring, pow_add]
      norm_num
  have hb : byteAt t m = t / 2 ^ (8 * m) := by
    unfold byteAt
    exact Nat.mod_eq_of_lt hdiv
  rw [hb] at htop
  have h7 : (2 : Nat) ^ (8 * m + 7) = 2 ^ (8 * m) * 128 := by
    rw [pow_add]
    norm_num
  have : t < 2 ^ (8 * m) * (t / 2 ^ (8 * m)) + 2 ^ (8 * m) := by omega
  calc t < 2 ^ (8 * m) * (t / 2 ^ (8 * m)) + 2 ^ (8 * m) := this
  _ ≤ 2 ^ (8 * m) * 127 + 2 ^ (8 * m) := by
    have := Nat.mul_le_mul_left (2 ^ (8 * m)) (show t / 2 ^ (8 * m) ≤ 127 by omega)
    omega
  _ = 2 ^ (8 * m) * 128 := by ring
  _ = 2 ^ (8 * m + 7) := h7.symm

theorem byteAt_top (t m : Nat) (hlt : t < 2 ^ (8 * (m + 1))) :
    byteAt t m = t / 2 ^ (8 * m) := by
  unfold byteAt
  apply Nat.mod_eq_of_lt
  apply Nat.div_lt_of_lt_mul
  calc t < 2 ^ (8 * (m + 1)) := hlt
  _ = 2 ^ (8 * m) * 256 := by
    rw [show 8 * (m + 1) = 8 * m + 8 by ring, pow_add]
    norm_num

theorem roundtrip_small (t m : Nat) (hm : findMsb t = some m) (hm2 : m ≤ 2)
    (htop : byteAt t m < 128) (ht : t < 2 ^ 256) :
    CompactToBig (BigToCompact t) = t := by
  have hlt := lt_of_findMsb t m ht hm
  have ht7 := topByte_small_bound t m hlt htop
  have hw : t * 2 ^ (8 * (2 - m)) < 2 ^ 23 := by
    calc t * 2 ^ (8 * (2 - m)) < 2 ^ (8 * m + 7) * 2 ^ (8 * (2 - m)) :=
      (mul_lt_mul_right (Nat.pos_pow_of_pos _ (by omega))).mpr ht7
    _ ≤ 2 ^ 23 := by
      rw [← pow_add]
      apply Nat.pow_le_pow_right (by omega)
      omega
  rw [BigToCompact_small t m hm hm2 ht, CompactToBig_parts (m + 1) _ (by omega) hw,
    if_pos (by omega : m + 1 ≤ 3), show 3 - (m + 1) = 2 - m from by omega,
    Nat.mul_div_cancel _ (Nat.pos_pow_of_pos _ (by omega))]

theorem roundtrip_big (t m : Nat) (hm : findMsb t = some m) (hm3 : 3 ≤ m)
    (htop : byteAt t m < 128) (hlow : t % 2 ^ (8 * (m - 2)) = 0) (ht : t < 2 ^ 256) :
    CompactToBig (BigToCompact t) = t := by
  obtain ⟨hm32, _, _⟩ := findMsbAux_some t 32 m hm
  have hlt := lt_of_findMsb t m ht hm
  have hv24 : t / 2 ^ (8 * (m - 2)) < 2 ^ 24 := by
    apply Nat.div_lt_of_lt_mul
    calc t < 2 ^ (8 * (m + 1)) := hlt
    _ = 2 ^ (8 * (m - 2)) * 2 ^ 24 := by
      rw [← pow_add]
      congr 1
      omega
  have hbyte : byteAt t m = t / 2 ^ (8 * (m - 2)) / 2 ^ 16 := by
    rw [byteAt_top t m hlt, Nat.div_div_eq_div_mul, ← pow_add]
    congr 2
    omega
  have hv23 : t / 2 ^ (8 * (m - 2)) < 2 ^ 23 := by
    rw [hbyte] at htop
    have := (Nat.div_lt_iff_lt_mul (show 0 < 2 ^ 16 by norm_num)).mp htop
    calc t / 2 ^ (8 * (m - 2)) < 128 * 2 ^ 16 := this
    _ = 2 ^ 23 := by norm_num
  rw [BigToCompact_big t m hm hm3 ht, if_neg (by omega),
    CompactToBig_parts (m + 1) _ (by omega) hv23, if_neg (by omega : ¬ (m + 1 ≤ 3)),
    if_pos (by omega : m + 1 ≤ 32), show m + 1 - 3 = m - 2 from by omega,
    Nat.div_mul_cancel (Nat.dvd_of_mod_eq_zero hlow)]

theorem roundtrip_zero : CompactToBig (BigToCompact 0) = 0 := by decide

theorem mul_pow_div (a j k : Nat) (h : j ≤ k) : a * 2 ^ j / 2 ^ k = a / 2 ^ (k - j) := by
  have hk : (2 : Nat) ^ k = 2 ^ j * 2 ^ (k - j) := by
    rw [← pow_add]
    congr 1
    omega
  rw [hk, ← Nat.div_div_eq_div_mul, Nat.mul_div_cancel _ (Nat.pos_pow_of_pos _ (by omega))]

theorem findMsb_of_form (t m : Nat) (hm32 : m < 32) (hb : byteAt t m ≠ 0)
    (hlt : t < 2 ^ (8 * (m + 1))) : findMsb t = some m := by
  apply findMsbAux_eq_some t 32 m hm32 hb
  intro j hj _
  apply byteAt_zero2
  calc t < 2 ^ (8 * (m + 1)) := hlt
  _ ≤ 2 ^ (8 * j) := Nat.pow_le_pow_right (by omega) (by omega)

theorem canonical_roundtrip_SM (S M : Nat) (hM : M < 2 ^ 23)
    (hbr : (2 ^ 16 ≤ M ∧ 1 ≤ S ∧ S ≤ 32 ∧ (S = 1 → M % 2 ^ 16 = 0) ∧
        (S = 2 → M % 2 ^ 8 = 0)) ∨
      (2 ^ 15 ≤ M ∧ M < 2 ^ 16 ∧ 5 ≤ S ∧ S ≤ 32)) :
    BigToCompact (CompactToBig (S * 2 ^ 24 + M)) = S * 2 ^ 24 + M := by
  have hparts := CompactToBig_parts S M
    (by rcases hbr with ⟨_, _, h, _⟩ | ⟨_, _, _, h⟩ <;> omega) hM
  rcases hbr with ⟨hm16, hs1, hs32, hs1z, hs2z⟩ | ⟨hm15, hm16u, hs5, hs32⟩
  · have hM7 : M / 2 ^ 16 < 2 ^ 7 := by
      apply Nat.div_lt_of_lt_mul
      calc M < 2 ^ 23 := hM
      _ = 2 ^ 7 * 2 ^ 16 := by norm_num
    rcases Nat.lt_or_ge S 4 with hs4 | hs4
    · interval_cases S
      · rw [hparts, if_pos (by norm_num), show 8 * (3 - 1) = 16 from by norm_num]
        have hms : findMsb (M / 2 ^ 16) = some 0 := by
          apply findMsb_of_form _ 0 (by norm_num)
          · unfold byteAt
            simp only [Nat.mul_zero, pow_zero, Nat.div_one]
            omega
          · calc M / 2 ^ 16 < 2 ^ 7 := hM7
            _ ≤ 2 ^ (8 * (0 + 1)) := by norm_num
        rw [BigToCompact_small _ 0 hms (by norm_num)
            (by calc M / 2 ^ 16 < 2 ^ 7 := hM7
                _ ≤ 2 ^ 256 := by norm_num),
          show 8 * (2 - 0) = 16 from by norm_num,
          Nat.div_mul_cancel (Nat.dvd_of_mod_eq_zero (hs1z rfl))]
      · rw [hparts, if_pos (by norm_num), show 8 * (3 - 2) = 8 from by norm_num]
        have h15 : M / 2 ^ 8 < 2 ^ 15 := by
          apply Nat.div_lt_of_lt_mul
          calc M < 2 ^ 23 := hM
          _ = 2 ^ 15 * 2 ^ 8 := by norm_num
        have hms : findMsb (M / 2 ^ 8) = some 1 := by
          apply findMsb_of_form _ 1 (by norm_num)
          · unfold byteAt
            rw [Nat.div_div_eq_div_mul]
            norm_num
            omega
          · calc M / 2 ^ 8 < 2 ^ 15 := h15
            _ ≤ 2 ^ (8 * (1 + 1)) := by norm_num
        rw [BigToCompact_small _ 1 hms (by norm_num)
            (by calc M / 2 ^ 8 < 2 ^ 15 := h15
                _ ≤ 2 ^ 256 := by norm_num),
          show 8 * (2 - 1) = 8 from by norm_num,
          Nat.div_mul_cancel (Nat.dvd_of_mod_eq_zero (hs2z rfl))]
      · rw [hparts, if_pos (by norm_num), show 8 * (3 - 3) = 0 from by norm_num,
          pow_zero, Nat.div_one]
        have hms : findMsb M = some 2 := by
          apply findMsb_of_form _ 2 (by norm_num)
          · unfold byteAt
            norm_num
            omega
          · calc M < 2 ^ 23 := hM
            _ ≤ 2 ^ (8 * (2 + 1)) := by norm_num
        rw [BigToCompact_small _ 2 hms (by norm_num) (by omega),
          show 8 * (2 - 2) = 0 from by norm_num, pow_zero, Nat.mul_one]
    · rw [hparts, if_neg (by omega), if_pos hs32]
      have hlt : M * 2 ^ (8 * (S - 3)) < 2 ^ (8 * ((S - 1) + 1)) := by
        calc M * 2 ^ (8 * (S - 3)) < 2 ^ 23 * 2 ^ (8 * (S - 3)) :=
          (mul_lt_mul_right (Nat.pos_pow_of_pos _ (by omega))).mpr hM
        _ ≤ 2 ^ (8 * ((S - 1) + 1)) := by
          rw [← pow_add]
          apply Nat.pow_le_pow_right (by omega)
          omega
      have ht256 : M * 2 ^ (8 * (S - 3)) < 2 ^ 256 := by
        calc M * 2 ^ (8 * (S - 3)) < 2 ^ (8 * ((S - 1) + 1)) := hlt
        _ ≤ 2 ^ 256 := Nat.pow_le_pow_right (by omega) (by omega)
      have hms : findMsb (M * 2 ^ (8 * (S - 3))) = some (S - 1) := by
        apply findMsb_of_form _ _ (by omega) _ hlt
        unfold byteAt
        rw [mul_pow_div M (8 * (S - 3)) (8 * (S - 1)) (by omega),
          show 8 * (S - 1) - 8 * (S - 3) = 16 from by omega,
          Nat.mod_eq_of_lt (by omega)]
        omega
      rw [BigToCompact_big _ (S - 1) hms (by omega) ht256,
        show S - 1 - 2 = S - 3 from by omega,
        Nat.mul_div_cancel _ (Nat.pos_pow_of_pos _ (by omega)),
        if_neg (by omega), show S - 1 + 1 = S from by omega]
  · rw [hparts, if_neg (by omega), if_pos hs32]
    have hlt : M * 2 ^ (8 * (S - 3)) < 2 ^ (8 * ((S - 2) + 1)) := by
      calc M * 2 ^ (8 * (S - 3)) < 2 ^ 16 * 2 ^ (8 * (S - 3)) :=
        (mul_lt_mul_right (Nat.pos_pow_of_pos _ (by omega))).mpr hm16u
      _ ≤ 2 ^ (8 * ((S - 2) + 1)) := by
        rw [← pow_add]
        apply Nat.pow_le_pow_right (by omega)
        omega
    have ht256 : M * 2 ^ (8 * (S - 3)) < 2 ^ 256 := by
      calc M * 2 ^ (8 * (S - 3)) < 2 ^ (8 * ((S - 2) + 1)) := hlt
      _ ≤ 2 ^ 256 := Nat.pow_le_pow_right (by omega) (by omega)
    have hms : findMsb (M * 2 ^ (8 * (S - 3))) = some (S - 2) := by
      apply findMsb_of_form _ _ (by omega) _ hlt
      unfold byteAt
      rw [mul_pow_div M (8 * (S - 3)) (8 * (S - 2)) (by omega),
        show 8 * (S - 2) - 8 * (S - 3) = 8 from by omega,
        Nat.mod_eq_of_lt (by omega)]
      omega
    have hsplit : M * 2 ^ (8 * (S - 3)) = M * 2 ^ 8 * 2 ^ (8 * (S - 4)) := by
      rw [mul_assoc, ← pow_add]
      congr 2
      omega
    rw [BigToCompact_big _ (S - 2) hms (by omega) ht256,
      show S - 2 - 2 = S - 4 from by omega, hsplit,
      Nat.mul_div_cancel _ (Nat.pos_pow_of_pos _ (by omega)),
      if_pos (by omega), Nat.mul_div_cancel _ (by norm_num : 0 < (2 : Nat) ^ 8),
      show S - 2 + 2 = S from by omega]

theorem canonical_roundtrip (c : Nat) (h : CanonicalCompact c) :
    BigToCompact (CompactToBig c) = c := by
  obtain ⟨hsz, hmod, hbr⟩ := h
  obtain ⟨S, M, hc, hM, hbr2⟩ :
      ∃ S M, c = S * 2 ^ 24 + M ∧ M < 2 ^ 23 ∧
        ((2 ^ 16 ≤ M ∧ 1 ≤ S ∧ S ≤ 32 ∧ (S = 1 → M % 2 ^ 16 = 0) ∧
            (S = 2 → M % 2 ^ 8 = 0)) ∨
          (2 ^ 15 ≤ M ∧ M < 2 ^ 16 ∧ 5 ≤ S ∧ S ≤ 32)) := by
    refine ⟨c / 2 ^ 24, c % 2 ^ 23, ?_, Nat.mod_lt _ (by norm_num), ?_⟩
    · have h24 := Nat.div_add_mod c (2 ^ 24)
      omega
    · have hdvd16 : c % 2 ^ 23 % 2 ^ 16 = c % 2 ^ 16 :=
        Nat.mod_mod_of_dvd c (by norm_num : (2 : Nat) ^ 16 ∣ 2 ^ 23)
      have hdvd8 : c % 2 ^ 23 % 2 ^ 8 = c % 2 ^ 8 :=
        Nat.mod_mod_of_dvd c (by norm_num : (2 : Nat) ^ 8 ∣ 2 ^ 23)
      rcases hbr with ⟨a1, a2, a3, a4, a5⟩ | ⟨a1, a2, a3, a4⟩
      · exact Or.inl ⟨a1, a2, a3, fun hs => by rw [hdvd16]; exact a4 hs,
          fun hs => by rw [hdvd8]; exact a5 hs⟩
      · exact Or.inr ⟨a1, a2, a3, a4⟩
  rw [hc]
  exact canonical_roundtrip_SM S M hM hbr2

theorem sign_clear_cases (t : Nat) (ht : t < 2 ^ 256)
    (h : byteAt t ((findMsb t).getD 0) < 128 ∨ 3 ≤ (findMsb t).getD 0) :
    BigToCompact t % 2 ^ 24 < 2 ^ 23 := by
  rcases Nat.eq_zero_or_pos t with rfl | htpos
  · decide
  · obtain ⟨m, hm⟩ := findMsb_exists t ht (by omega)
    rw [hm] at h
    simp only [Option.getD_some] at h
    rcases le_or_lt m 2 with hm2 | hm2
    · have htop : byteAt t m < 128 := by
        rcases h with h | h
        · exact h
        · omega
      have hlt := lt_of_findMsb t m ht hm
      have ht7 := topByte_small_bound t m hlt htop
      have hw : t * 2 ^ (8 * (2 - m)) < 2 ^ 23 := by
        calc t * 2 ^ (8 * (2 - m)) < 2 ^ (8 * m + 7) * 2 ^ (8 * (2 - m)) :=
          (mul_lt_mul_right (Nat.pos_pow_of_pos _ (by omega))).mpr ht7
        _ ≤ 2 ^ 23 := by
          rw [← pow_add]
          apply Nat.pow_le_pow_right (by omega)
          omega
      rw [BigToCompact_small t m hm hm2 ht, Nat.mul_add_mod_of_lt (by omega)]
      exact hw
    · have hv24 : t / 2 ^ (8 * (m - 2)) < 2 ^ 24 := by
        have hlt := lt_of_findMsb t m ht hm
        apply Nat.div_lt_of_lt_mul
        calc t < 2 ^ (8 * (m + 1)) := hlt
        _ = 2 ^ (8 * (m - 2)) * 2 ^ 24 := by
          rw [← pow_add]
          congr 1
          omega
      rw [BigToCompact_big t m hm (by omega) ht]
      split_ifs with hsign
      · have : t / 2 ^ (8 * (m - 2)) / 2 ^ 8 < 2 ^ 16 := by
          apply Nat.div_lt_of_lt_mul
          calc t / 2 ^ (8 * (m - 2)) < 2 ^ 24 := hv24
          _ = 2 ^ 16 * 2 ^ 8 := by norm_num
        rw [Nat.mul_add_mod_of_lt (by omega)]
        omega
      · rw [Nat.mul_add_mod_of_lt (by omega)]
        omega

/-- Claim C1, amended: (a) `CompactToBig (BigToCompact t) = t` holds for every
`t ≤ powLimit` whose bytes below the top three significant bytes are zero and
whose most significant byte is below `0x80` (general `t` is truncated, and a
top byte of `0x80` or more with at most three significant bytes yields a
sign-bit-set compact that expands to zero); (b) `BigToCompact (CompactToBig c)
= c` for every canonical `c`; (c) the sign bit of `BigToCompact t` is clear
whenever `t` has at least four significant bytes or its top byte is below
`0x80`. -/
theorem compact_roundtrip_amended :
    (∀ t, t ≤ powLimitMain → ExactCompact t → CompactToBig (BigToCompact t) = t) ∧
    (∀ c, CanonicalCompact c → BigToCompact (CompactToBig c) = c) ∧
    (∀ t, t < 2 ^ 256 →
      (byteAt t ((findMsb t).getD 0) < 128 ∨ 3 ≤ (findMsb t).getD 0) →
      BigToCompact t % 2 ^ 24 < 2 ^ 23) := by
  refine ⟨?_, fun c h => canonical_roundtrip c h, fun t ht h => sign_clear_cases t ht h⟩
  intro t hle hex
  have ht256 : t < 2 ^ 256 := by
    calc t ≤ powLimitMain := hle
    _ < 2 ^ 256 := by decide
  rcases Nat.eq_zero_or_pos t with rfl | htpos
  · exact roundtrip_zero
  · obtain ⟨m, hm⟩ := findMsb_exists t ht256 (by omega)
    unfold ExactCompact at hex
    obtain ⟨htop, hlow⟩ := hex
    rw [hm] at htop hlow
    simp only [Option.getD_some] at htop hlow
    rcases le_or_lt m 2 with hm2 | hm2
    · exact roundtrip_small t m hm hm2 htop ht256
    · exact roundtrip_big t m hm (by omega) htop hlow ht256

/-- Counterexample to C1 as stated: `t = 0x01000001 ≤ powLimit` loses its low
byte under `BigToCompact` (the round-trip yields `0x01000000`), and
`BigToCompact 0x81 = 0x01810000` has the mantissa sign bit set. -/
theorem compact_roundtrip_counterexample :
    (16777217 ≤ powLimitMain ∧ CompactToBig (BigToCompact 16777217) ≠ 16777217) ∧
      (129 ≤ powLimitMain ∧ 2 ^ 23 ≤ BigToCompact 129 % 2 ^ 24) := by
  exact ⟨⟨by decide, by decide⟩, by decide, by decide⟩

/-- Witness for C1 (amended) at `t = 0x01000000`, `c = 0x1d00ffff` (the
spec's own round-trip example) and `t = 0x80000000`. -/
theorem compact_roundtrip_amended_witness :
    (16777216 ≤ powLimitMain ∧ ExactCompact 16777216 ∧
      CompactToBig (BigToCompact 16777216) = 16777216) ∧
    (CanonicalCompact 0x1d00ffff ∧
      BigToCompact (CompactToBig 0x1d00ffff) = 0x1d00ffff) ∧
    BigToCompact 2147483648 % 2 ^ 24 < 2 ^ 23 :=
  ⟨⟨by decide, by decide, compact_roundtrip_amended.1 16777216 (by decide) (by decide)⟩,
    ⟨by decide, compact_roundtrip_amended.2.1 0x1d00ffff (by decide)⟩,
    compact_roundtrip_amended.2.2 2147483648 (by decide) (Or.inr (by decide))⟩

/-! ### C9 — block subsidy schedule -/

/-- Claim C9: `GetBlockSubsidy(n·HalvingInterval) = InitialReward >> n` for
`0 ≤ n ≤ 63`, `GetBlockSubsidy(h) = 0` once `h / HalvingInterval ≥ 64`, and
the concrete mainnet values `5 000 000 000`, `2 500 000 000` and `0` at
heights `0`, `210 000` and `13 440 000`. -/
theorem subsidy_halving_schedule :
    (∀ (p : ChainParams) (n : Nat), 0 < p.nSubsidyHalvingInterval → n ≤ 63 →
      GetBlockSubsidy (n * p.nSubsidyHalvingInterval) p = p.nInitialBlockReward / 2 ^ n) ∧
    (∀ (p : ChainParams) (h : Nat), 64 ≤ h / p.nSubsidyHalvingInterval →
      GetBlockSubsidy h p = 0) ∧
    GetBlockSubsidy 0 mainParams = 5000000000 ∧
    GetBlockSubsidy 210000 mainParams = 2500000000 ∧
    GetBlockSubsidy 13440000 mainParams = 0 := by
  refine ⟨?_, ?_, by decide, by decide, by decide⟩
  · intro p n hpos hn
    rcases Nat.eq_zero_or_pos n with h0 | hnpos
    · subst h0
      simp [GetBlockSubsidy]
    · have hne : n * p.nSubsidyHalvingInterval ≠ 0 := by positivity
      have hdiv : n * p.nSubsidyHalvingInterval / p.nSubsidyHalvingInterval = n :=
        Nat.mul_div_cancel n hpos
      unfold GetBlockSubsidy
      rw [if_neg hne, hdiv, if_neg (by omega), Nat.shiftRight_eq_div_pow]
  · intro p h hh
    have hne : h ≠ 0 := by
      intro h0
      subst h0
      simp at hh
    unfold GetBlockSubsidy
    rw [if_neg hne, if_pos hh]

/-- Witness for C9 at `n = 1` and `h = 13 440 000` on the mainnet profile. -/
theorem subsidy_halving_schedule_witness :
    GetBlockSubsidy (1 * mainParams.nSubsidyHalvingInterval) mainParams
        = mainParams.nInitialBlockReward / 2 ^ 1 ∧
      GetBlockSubsidy 13440000 mainParams = 0 :=
  ⟨subsidy_halving_schedule.1 mainParams 1 (by decide) (by decide),
    subsidy_halving_schedule.2.1 mainParams 13440000 (by decide)⟩

/-! ### C10 — sign-bit compact targets never validate -/

/-- Claim C10: for every block hash and every `nBits` with the mantissa sign
bit (`0x00800000`) set, `CheckProofOfWork` returns `false`: the expansion of
such an `nBits` is the zero target, it never exceeds `powLimit`, and no hash
is below zero. -/
theorem sign_bit_never_validates (hash nBits : Nat) (params : ChainParams)
    (h : nBits / 2 ^ 23 % 2 = 1) : CheckProofOfWork hash nBits params = false := by
  have hnz : nBits ≠ 0 := by
    intro h0
    rw [h0] at h
    simp at h
  unfold CheckProofOfWork
  rw [if_neg hnz]
  simp only [CompactToBig_sign nBits h, targetExceedsLimit, exceedsGo_zero_left]
  simp

/-- Witness for C10 at `nBits = 0x01810000` (sign bit set). -/
theorem sign_bit_never_validates_witness :
    CheckProofOfWork 0 0x01810000 mainParams = false :=
  sign_bit_never_validates 0 0x01810000 mainParams (by decide)

/-! ### C4 — blocks without a PoUW commitment -/

/-- Counterexample to C4 as stated: on a network with `fPoUWOptional = false`
but `fPowNoRetargeting = true`, a non-genesis block whose coinbase carries no
commitment is still accepted, so acceptance is not equivalent to
`fPoUWOptional`. -/
theorem no_commitment_not_iff_optional :
    VerifyUsefulWork noCommitBlock regtestLikeParams = true ∧
      regtestLikeParams.fPoUWOptional = false ∧
      noCommitBlock.hashPrevBlock ≠ 0 ∧
      (noCommitBlock.vtx.map ExtractPoUWCommitment) = [none] := by
  refine ⟨by decide, by decide, by decide, by decide⟩

/-- Claim C4, amended: for every non-genesis block whose coinbase contains
no PoUW commitment, `VerifyUsefulWork` returns true iff the network marks
PoUW optional **or** disables retargeting (the source uses
`fPowNoRetargeting` as a regtest proxy, spec §9). -/
theorem no_commitment_verify (params : ChainParams) (b : Block) (cb : Transaction)
    (rest : List Transaction) (hvtx : b.vtx = cb :: rest) (hcb : cb.isCoinBase = true)
    (hprev : b.hashPrevBlock ≠ 0) (hext : ExtractPoUWCommitment cb = none) :
    VerifyUsefulWork b params = (params.fPoUWOptional || params.fPowNoRetargeting) := by
  unfold VerifyUsefulWork
  rw [hvtx]
  simp [hcb, hprev, hext]

/-- Witness for C4 (amended) at the concrete commitment-free block on the
regtest-like profile. -/
theorem no_commitment_verify_witness :
    VerifyUsefulWork noCommitBlock regtestLikeParams
        = (regtestLikeParams.fPoUWOptional || regtestLikeParams.fPowNoRetargeting) :=
  no_commitment_verify regtestLikeParams noCommitBlock
    { vin := [{ scriptSig := [] }], vout := [], isCoinBase := true } [] rfl rfl
    (by decide) rfl

theorem ProcessClaim_fst (verify : ZKProof → Bool) (d : UBIDistributor) (claim : UBIClaim)
    (identityTreeRoot : Nat) (currentHeight : Int) :
    (ProcessClaim verify d claim identityTreeRoot currentHeight).1 =
      match mapFind claim.epoch d.pools with
      | none => ClaimStatus.EpochNotComplete
      | some pool => claimStatusFor verify pool claim identityTreeRoot currentHeight := by
  unfold ProcessClaim
  cases mapFind claim.epoch d.pools with
  | none => rfl
  | some pool =>
    cases hst : claimStatusFor verify pool claim identityTreeRoot currentHeight <;>
      simp [hst]

/-! ### C2 — VerifyClaim against ProcessClaim -/

/-- Counterexample to C2 as stated: on a finalized pool with
`amountPerPerson = 0` (too few identities), `VerifyClaim` returns true while
`ProcessClaim` returns `PoolEmpty`, not `Valid` — `VerifyClaim` omits the
`PoolEmpty` check. -/
theorem verify_claim_not_equivalent :
    VerifyClaim acceptAll emptyPoolDist (traceClaim 1) 0 10 = true ∧
      (ProcessClaim acceptAll emptyPoolDist (traceClaim 1) 0 10).1 = ClaimStatus.PoolEmpty ∧
      (ProcessClaim acceptAll emptyPoolDist (traceClaim 1) 0 10).1 ≠ ClaimStatus.Valid := by
  refine ⟨by decide, by decide, by decide⟩

set_option maxHeartbeats 1000000 in
/-- Claim C2, amended: `VerifyClaim` evaluates the same predicate as
`ProcessClaim` except for the `PoolEmpty` check, which it omits; on every
state whose pool for the claim's epoch has a non-zero `amountPerPerson`,
`VerifyClaim` returns true iff `ProcessClaim` returns `Valid`
(`VerifyClaim` itself performs no state mutation — it returns only a
boolean). -/
theorem verify_claim_iff_process_valid (verify : ZKProof → Bool) (d : UBIDistributor)
    (claim : UBIClaim) (identityTreeRoot : Nat) (currentHeight : Int)
    (hpool : ∀ pool, mapFind claim.epoch d.pools = some pool → pool.amountPerPerson ≠ 0) :
    (VerifyClaim verify d claim identityTreeRoot currentHeight = true ↔
      (ProcessClaim verify d claim identityTreeRoot currentHeight).1 = ClaimStatus.Valid) := by
  rw [ProcessClaim_fst]
  unfold VerifyClaim
  cases hm : mapFind claim.epoch d.pools with
  | none => simp
  | some pool =>
    have happ := hpool pool hm
    have hiff : verifyClaimChecks verify pool claim identityTreeRoot currentHeight = true ↔
        claimStatusFor verify pool claim identityTreeRoot currentHeight
          = ClaimStatus.Valid := by
      unfold verifyClaimChecks claimStatusFor
      split_ifs <;> simp_all
    simpa using hiff

/-- Witness for C2 (amended) on the funded pool with a fresh claim. -/
theorem verify_claim_iff_process_valid_witness :
    VerifyClaim acceptAll fundedDist (traceClaim 1) 0 10 = true ↔
      (ProcessClaim acceptAll fundedDist (traceClaim 1) 0 10).1 = ClaimStatus.Valid :=
  verify_claim_iff_process_valid acceptAll fundedDist (traceClaim 1) 0 10
    (by decide)

/-! ### C5 — ProcessClaim check order -/

set_option maxHeartbeats 4000000 in
/-- Claim C5: `ProcessClaim` stamps `submitHeight`, then evaluates its
checks in the strict order `EpochNotComplete` (no pool or not finalized),
`EpochExpired`, `PoolEmpty`, `DoubleClaim`, `InvalidProof`, writing the
first failing status into the claim and returning it; in particular a claim
that is both a double claim and carries an invalid proof reports
`DoubleClaim`. -/
theorem process_claim_check_order (verify : ZKProof → Bool) (d : UBIDistributor)
    (claim : UBIClaim) (identityTreeRoot : Nat) (currentHeight : Int) :
    (ProcessClaim verify d claim identityTreeRoot currentHeight).2.2.submitHeight
        = currentHeight ∧
    (ProcessClaim verify d claim identityTreeRoot currentHeight).2.2.status
        = (ProcessClaim verify d claim identityTreeRoot currentHeight).1 ∧
    (mapFind claim.epoch d.pools = none →
      (ProcessClaim verify d claim identityTreeRoot currentHeight).1
        = ClaimStatus.EpochNotComplete) ∧
    ∀ pool, mapFind claim.epoch d.pools = some pool →
      (pool.isFinalized = false →
        (ProcessClaim verify d claim identityTreeRoot currentHeight).1
          = ClaimStatus.EpochNotComplete) ∧
      (pool.isFinalized = true → pool.claimDeadline < currentHeight →
        (ProcessClaim verify d claim identityTreeRoot currentHeight).1
          = ClaimStatus.EpochExpired) ∧
      (pool.isFinalized = true → currentHeight ≤ pool.claimDeadline →
        pool.amountPerPerson = 0 →
        (ProcessClaim verify d claim identityTreeRoot currentHeight).1
          = ClaimStatus.PoolEmpty) ∧
      (pool.isFinalized = true → currentHeight ≤ pool.claimDeadline →
        pool.amountPerPerson ≠ 0 →
        nfMem claim.nullifier pool.usedNullifiers = true →
        (ProcessClaim verify d claim identityTreeRoot currentHeight).1
          = ClaimStatus.DoubleClaim) ∧
      (pool.isFinalized = true → currentHeight ≤ pool.claimDeadline →
        pool.amountPerPerson ≠ 0 →
        nfMem claim.nullifier pool.usedNullifiers = false →
        proofChecksPass verify claim identityTreeRoot = false →
        (ProcessClaim verify d claim identityTreeRoot currentHeight).1
          = ClaimStatus.InvalidProof) ∧
      (pool.isFinalized = true → currentHeight ≤ pool.claimDeadline →
        pool.amountPerPerson ≠ 0 →
        nfMem claim.nullifier pool.usedNullifiers = false →
        proofChecksPass verify claim identityTreeRoot = true →
        (ProcessClaim verify d claim identityTreeRoot currentHeight).1
          = ClaimStatus.Valid) := by
  refine ⟨?_, ?_, ?_, ?_⟩
  · unfold ProcessClaim
    cases mapFind claim.epoch d.pools with
    | none => rfl
    | some pool =>
      cases hst : claimStatusFor verify pool claim identityTreeRoot currentHeight <;>
        simp [hst]
  · unfold ProcessClaim
    cases mapFind claim.epoch d.pools with
    | none => rfl
    | some pool =>
      cases hst : claimStatusFor verify pool claim identityTreeRoot currentHeight <;>
        simp [hst]
  · intro hm
    rw [ProcessClaim_fst, hm]
  · intro pool hm
    rw [ProcessClaim_fst, hm]
    unfold claimStatusFor poolAcceptingClaims proofChecksPass
    refine ⟨?_, ?_, ?_, ?_, ?_, ?_⟩ <;>
      · intros
        split_ifs <;> simp_all <;> omega

/-- Witness for C5: the double-claim-with-invalid-proof conjunct at a
concrete state — replaying an already used nullifier with a rejected proof
yields `DoubleClaim`. -/
theorem process_claim_check_order_witness :
    nfMem (traceClaim 1).nullifier usedPool.usedNullifiers = true ∧
      proofChecksPass (fun _ => false) (traceClaim 1) 0 = false ∧
      (ProcessClaim (fun _ => false) usedPoolDist (traceClaim 1) 0 10).1
        = ClaimStatus.DoubleClaim :=
  ⟨by decide, by decide,
    ((process_claim_check_order (fun _ => false) usedPoolDist (traceClaim 1) 0 10).2.2.2
        usedPool rfl).2.2.2.1 (by decide) (by decide) (by decide) (by decide)⟩

/-! ### C6 — atomicity of failed claims -/

/-- Claim C6: every `ProcessClaim` invocation that returns a status other
than `Valid` leaves the distributor state — the targeted pool's
`usedNullifiers`, `amountClaimed` and `claimCount`, and the global totals —
entirely unchanged. -/
theorem process_claim_failure_atomic (verify : ZKProof → Bool) (d : UBIDistributor)
    (claim : UBIClaim) (identityTreeRoot : Nat) (currentHeight : Int)
    (h : (ProcessClaim verify d claim identityTreeRoot currentHeight).1 ≠ ClaimStatus.Valid) :
    (ProcessClaim verify d claim identityTreeRoot currentHeight).2.1 = d := by
  rw [ProcessClaim_fst] at h
  unfold ProcessClaim
  cases hm : mapFind claim.epoch d.pools with
  | none => rfl
  | some pool =>
    rw [hm] at h
    cases hst : claimStatusFor verify pool claim identityTreeRoot currentHeight <;>
      simp_all

/-- Witness for C6: an expired-pool claim leaves the state unchanged. -/
theorem process_claim_failure_atomic_witness :
    (ProcessClaim acceptAll fundedDist (traceClaim 1) 0 1000).1 ≠ ClaimStatus.Valid ∧
      (ProcessClaim acceptAll fundedDist (traceClaim 1) 0 1000).2.1 = fundedDist :=
  ⟨by decide, process_claim_failure_atomic acceptAll fundedDist (traceClaim 1) 0 1000
    (by decide)⟩

/-! ### C3 — funds conservation -/

/-- Claim C3 fails on the code: starting from an empty distributor, 100
units of epoch-0 rewards are finalized for 2 identities
(`amountPerPerson = 50`); three `ProcessClaim` calls with distinct
fabricated nullifiers — all reusing the same accepted proof, whose
nullifier-hash public input is never compared against the claim's
nullifier — each return `Valid`, leaving a finalized pool with
`amountClaimed = 150 = 3 × 50 > 100 = totalPool`. -/
theorem funds_conservation_violated :
    (mapFind 0 overdrawnDist.pools).map
        (fun p => (p.isFinalized, p.totalPool, p.amountClaimed,
          (p.claimCount : Int) * p.amountPerPerson)) = some (true, 100, 150, 150) ∧
      ¬ ((150 : Int) ≤ (100 : Int)) := by
  exact ⟨by decide, by decide⟩

/-! ### C8 — min-difficulty walk-back -/

theorem walkBack_skips (interval minBits : Nat) :
    ∀ (chain : List BlockIndexNode) (bits : Nat),
      SkipsToReal interval minBits chain bits → walkBack interval minBits chain = bits := by
  intro chain bits h
  induction h with
  | found b rest hb =>
    cases rest with
    | nil => rfl
    | cons p rest2 =>
      unfold walkBack
      rw [if_neg]
      simp [hb]
  | skip b p rest bits hb hh _ ih =>
    unfold walkBack
    rw [if_pos ⟨hh, hb⟩]
    exact ih

/-- Counterexample to C8 as stated: on `walkChain` the two newest blocks are
min-difficulty and the newest sits at a retarget-boundary height; for a
next header within `2 × targetSpacing`, `GetNextWorkRequired` returns the
minimum-difficulty compact target, not the last real `nBits` (500). -/
theorem min_difficulty_walkback_stops_at_boundary :
    GetNextWorkRequired walkChain (some walkHeader) testnetWalkParams
        = BigToCompact testnetWalkParams.powLimit ∧
      (walkChain.map (fun b => b.nBits))
        = [BigToCompact testnetWalkParams.powLimit,
            BigToCompact testnetWalkParams.powLimit, 500] ∧
      500 ≠ BigToCompact testnetWalkParams.powLimit ∧
      walkHeader.nTime
        ≤ (walkChain.map (fun b => b.nTime)).headI
            + testnetWalkParams.nPowTargetSpacing * 2 := by
  exact ⟨by decide, by decide, by decide, by decide⟩

/-- Claim C8, amended: on a network permitting min-difficulty blocks, for a
next header within `2 × targetSpacing` of the tip, `GetNextWorkRequired`
returns the last real `nBits` **provided** the consecutive run of
min-difficulty blocks above it contains no block at a retarget-boundary
height (the walk also stops at boundary heights, and at the chain root). -/
theorem min_difficulty_walkback (params : ChainParams) (hdr : BlockHeader)
    (tip : BlockIndexNode) (rest : List BlockIndexNode) (bits : Nat)
    (hmin : params.fAllowMinDifficultyBlocks = true)
    (hretarget : params.fPowNoRetargeting = false)
    (htime : hdr.nTime ≤ tip.nTime + params.nPowTargetSpacing * 2)
    (hskip : SkipsToReal params.difficultyAdjustmentInterval (BigToCompact params.powLimit)
      (tip :: rest) bits) :
    GetNextWorkRequired (tip :: rest) (some hdr) params = bits := by
  unfold GetNextWorkRequired
  dsimp only
  rw [if_neg (by simp [hretarget]), if_pos (by simp [hmin]), if_neg (by omega)]
  exact walkBack_skips _ _ _ _ hskip

/-- Witness for C8 (amended): a min-difficulty tip off the boundary; the
walk-back recovers `nBits = 500` from its parent. -/
theorem min_difficulty_walkback_witness :
    GetNextWorkRequired walkChainOff (some walkHeader) testnetWalkParams = 500 :=
  min_difficulty_walkback testnetWalkParams walkHeader
    { nHeight := 1, nTime := 990, nBits := 0x1d00ffff }
    [{ nHeight := 0, nTime := 980, nBits := 500 }] 500 rfl rfl (by decide)
    (SkipsToReal.skip _ _ _ _ (by decide) (by decide)
      (SkipsToReal.found _ _ (by decide)))

/-! ### C7 — distributor serialization round-trip -/

theorem le_length (k v : Nat) : (le k v).length = k := by
  induction k generalizing v with
  | zero => rfl
  | succ n ih => simp [le, ih]

theorem rdLE_mod (k : Nat) : ∀ (v : Nat) (rest : List Nat),
    rdLE k (le k v ++ rest) = some (v % 2 ^ (8 * k), rest) := by
  induction k with
  | zero => intro v rest; simp [le, rdLE, Nat.mod_one]
  | succ n ih =>
    intro v rest
    rw [le, List.cons_append, rdLE, ih (v / 256) rest]
    have : v % 2 ^ (8 * (n + 1)) = v % 256 + 256 * (v / 256 % 2 ^ (8 * n)) := by
      rw [show 8 * (n + 1) = 8 + 8 * n by ring, pow_add]
      rw [show (2 : Nat) ^ 8 = 256 from by norm_num]
      exact Nat.mod_mul
    rw [this]

theorem rdLE_lt (k v : Nat) (rest : List Nat) (h : v < 2 ^ (8 * k)) :
    rdLE k (le k v ++ rest) = some (v, rest) := by
  rw [rdLE_mod, Nat.mod_eq_of_lt h]

theorem leI_nonneg (k : Nat) (v : Int) (h0 : 0 ≤ v) (h1 : v < ((2 ^ (8 * k) : Nat) : Int)) :
    leI k v = le k v.toNat := by
  unfold leI
  rw [Int.emod_eq_of_lt h0 h1]

theorem decSigned_small (k n : Nat) (h : n < 2 ^ (8 * k - 1)) : decSigned k n = n := by
  unfold decSigned
  rw [if_pos h]

theorem toNat_lt_of_int (v : Int) (b : Nat) (h0 : 0 ≤ v) (h1 : v < (b : Int)) : v.toNat < b := by
  omega

theorem nullLt_asymm (a b : Nullifier) (h : nullLt a b = true) :
    a ≠ b ∧ nullLt b a = false := by
  unfold nullLt at h ⊢
  rw [decide_eq_true_iff] at h
  constructor
  · intro he
    subst he
    rcases h with h | ⟨h1, h2⟩ <;> omega
  · rw [decide_eq_false_iff_not]
    rcases h with h | ⟨h1, h2⟩
    · rintro (h2 | ⟨h3, h4⟩) <;> omega
    · rintro (h3 | ⟨h4, h5⟩) <;> omega

theorem nfInsert_append (n : Nullifier) (l : List Nullifier)
    (h : ∀ x ∈ l, nullLt x n = true) : nfInsert n l = l ++ [n] := by
  induction l with
  | nil => rfl
  | cons x xs ih =>
    have hx := h x (by simp)
    obtain ⟨hne, hlt⟩ := nullLt_asymm x n hx
    unfold nfInsert
    rw [if_neg (fun he => hne he.symm), if_neg (by simp [hlt]),
      ih fun y hy => h y (by simp [hy])]
    simp

theorem nulls_bytes_len (l : List Nullifier) :
    ((l.map serNull).flatten).length = 32 * l.length := by
  induction l with
  | nil => rfl
  | cons x xs ih =>
    simp [serNull, ih, le_length]
    ring

theorem rdNulls_rt (e : Nat) :
    ∀ (nulls acc : List Nullifier) (rest : List Nat),
      List.Pairwise (fun a b => nullLt a b = true) (acc ++ nulls) →
      (∀ n ∈ nulls, n.hash < 2 ^ 256 ∧ n.nEpoch = e) →
      rdNulls e nulls.length acc ((nulls.map serNull).flatten ++ rest)
        = some (acc ++ nulls, rest) := by
  intro nulls
  induction nulls with
  | nil => intro acc rest _ _; simp [rdNulls]
  | cons n ns ih =>
    intro acc rest hsort hbound
    obtain ⟨hh, he⟩ := hbound n (by simp)
    rw [List.length_cons, List.map_cons, List.flatten_cons, List.append_assoc, rdNulls,
      serNull, rdLE_lt 32 n.hash _ hh]
    dsimp only
    have hn : (⟨n.hash, e⟩ : Nullifier) = n := by
      cases n
      simp_all
    rw [hn]
    have hacc : nfInsert n acc = acc ++ [n] := by
      apply nfInsert_append
      intro x hx
      have := (List.pairwise_append.mp hsort).2.2
      exact this x hx n (by simp)
    rw [hacc]
    have hsort2 : List.Pairwise (fun a b => nullLt a b = true) ((acc ++ [n]) ++ ns) := by
      simpa using hsort
    have := ih (acc ++ [n]) rest hsort2 fun m hm => hbound m (by simp [hm])
    simpa using this

theorem mapInsert_append (e : Nat) (v : EpochUBIPool) (l : List (Nat × EpochUBIPool))
    (h : ∀ x ∈ l, x.1 < e) : mapInsert e v l = l ++ [(e, v)] := by
  induction l with
  | nil => rfl
  | cons x xs ih =>
    have hx := h x (by simp)
    unfold mapInsert
    rw [if_neg (by omega), if_neg (by omega), ih fun y hy => h y (by simp [hy])]
    simp

theorem serNull_len_sum (l : List Nullifier) :
    (List.map (List.length ∘ serNull) l).sum = 32 * l.length := by
  induction l with
  | nil => rfl
  | cons x xs ih =>
    simp [serNull, le_length, ih]
    ring

theorem serPool_length (e : Nat) (p : EpochUBIPool) :
    (serPool e p).length = 53 + 32 * p.usedNullifiers.length := by
  simp [serPool, leI, le_length, serNull_len_sum]
  omega

theorem rdPool_rt (e : Nat) (p : EpochUBIPool) (rest : List Nat) (h : WFPool e p) :
    rdPool (serPool e p ++ rest) = some ((e, p), rest) := by
  obtain ⟨hpe, he64, htp0, htp1, hec, happ0, happ1, hac0, hac1, hcc, heh0, heh1,
    hcd0, hcd1, hnlen, hnsort, hnb⟩ := h
  unfold rdPool
  rw [if_neg (by
    rw [List.length_append, serPool_length]
    omega)]
  unfold serPool
  rw [leI_nonneg 8 p.totalPool htp0 (by exact_mod_cast by omega),
    leI_nonneg 8 p.amountPerPerson happ0 (by exact_mod_cast by omega),
    leI_nonneg 8 p.amountClaimed hac0 (by exact_mod_cast by omega),
    leI_nonneg 4 p.endHeight heh0 (by exact_mod_cast by omega),
    leI_nonneg 4 p.claimDeadline hcd0 (by exact_mod_cast by omega)]
  simp only [List.append_assoc]
  rw [rdLE_lt 8 e _ (by omega)]
  dsimp only
  rw [rdLE_lt 8 p.totalPool.toNat _ (by omega)]
  dsimp only
  rw [rdLE_lt 4 p.eligibleCount _ (by omega)]
  dsimp only
  rw [rdLE_lt 8 p.amountPerPerson.toNat _ (by omega)]
  dsimp only
  rw [rdLE_lt 8 p.amountClaimed.toNat _ (by omega)]
  dsimp only
  rw [rdLE_lt 4 p.claimCount _ (by omega)]
  dsimp only
  rw [List.cons_append]
  dsimp only
  rw [List.nil_append]
  rw [rdLE_lt 4 p.endHeight.toNat _ (by omega)]
  dsimp only
  rw [rdLE_lt 4 p.claimDeadline.toNat _ (by omega)]
  dsimp only
  rw [rdLE_lt 4 p.usedNullifiers.length _ (by omega)]
  dsimp only
  rw [if_neg (by omega)]
  rw [if_neg (by
    rw [List.length_append, nulls_bytes_len]
    omega)]
  rw [rdNulls_rt e p.usedNullifiers [] rest (by simpa using hnsort) hnb]
  dsimp only
  rw [decSigned_small 4 p.endHeight.toNat (by omega),
    decSigned_small 4 p.claimDeadline.toNat (by omega),
    decSigned_small 8 p.totalPool.toNat (by omega),
    decSigned_small 8 p.amountPerPerson.toNat (by omega),
    decSigned_small 8 p.amountClaimed.toNat (by omega)]
  rw [Int.toNat_of_nonneg heh0, Int.toNat_of_nonneg hcd0, Int.toNat_of_nonneg htp0,
    Int.toNat_of_nonneg happ0, Int.toNat_of_nonneg hac0, List.nil_append]
  have hfin2 : decide ((if p.isFinalized = true then 1 else 0) ≠ 0) = p.isFinalized := by
    cases p.isFinalized <;> simp
  rw [hfin2, ← hpe]

theorem rdPools_rt :
    ∀ (pools acc : List (Nat × EpochUBIPool)) (rest : List Nat),
      List.Pairwise (fun a b => a.1 < b.1) (acc ++ pools) →
      (∀ ep ∈ pools, WFPool ep.1 ep.2) →
      rdPools pools.length acc
          ((pools.map fun ep => serPool ep.1 ep.2).flatten ++ rest)
        = some (acc ++ pools, rest) := by
  intro pools
  induction pools with
  | nil => intro acc rest _ _; simp [rdPools]
  | cons q qs ih =>
    intro acc rest hsort hwf
    rw [List.length_cons, List.map_cons, List.flatten_cons, List.append_assoc, rdPools,
      rdPool_rt q.1 q.2 _ (hwf q (by simp))]
    dsimp only
    have hacc : mapInsert q.1 q.2 acc = acc ++ [q] := by
      rw [mapInsert_append]
      intro x hx
      exact (List.pairwise_append.mp hsort).2.2 x hx q (by simp)
    rw [hacc]
    have hsort2 : List.Pairwise (fun a b => a.1 < b.1) ((acc ++ [q]) ++ qs) := by
      simpa using hsort
    have := ih (acc ++ [q]) rest hsort2 fun m hm => hwf m (by simp [hm])
    simpa using this

theorem UBIDeserialize_rt (d0 D : UBIDistributor) (h : WFDistributor D) :
    UBIDeserialize d0 (UBISerialize D)
      = some { d0 with currentEpoch := D.currentEpoch, pools := D.pools } := by
  obtain ⟨hcur, hlen, hsort, hwf⟩ := h
  unfold UBIDeserialize UBISerialize
  rw [if_neg (by
    simp [le_length]
    omega)]
  dsimp only
  rw [if_neg (by omega)]
  simp only [List.append_assoc]
  rw [rdLE_lt 8 D.currentEpoch _ (by omega)]
  dsimp only
  rw [rdLE_lt 4 D.pools.length _ (by omega)]
  dsimp only
  rw [if_neg (by omega)]
  have := rdPools_rt D.pools [] [] (by simpa using hsort) hwf
  rw [List.append_nil] at this
  rw [this]
  dsimp only
  rw [List.nil_append]

/-- Claim C7, amended: `Deserialize(Serialize(D))` succeeds and restores
`currentEpoch`, the set of epochs, and every serialized pool field including
the `usedNullifiers` set, for every distributor state within the
serialization bounds **whose pools' nullifier epochs all equal the owning
pool's epoch**; `ProcessClaim` accepts claims whose nullifier epoch differs
from the claim epoch, and for such reachable states the round-trip rewrites
the nullifier epochs to the pool's epoch.  (The distribution totals are not
part of the persistent format and are untouched, as in the source.) -/
theorem distributor_serialize_roundtrip (D d0 : UBIDistributor) (h : WFDistributor D) :
    UBIDeserialize d0 (UBISerialize D)
      = some { d0 with currentEpoch := D.currentEpoch, pools := D.pools } :=
  UBIDeserialize_rt d0 D h

/-- Counterexample to C7 as stated: `mismatchedDist` is reachable
(`AddBlockReward`, `FinalizeEpoch`, then `ProcessClaim` of a claim whose
nullifier carries epoch 99 while the claim targets epoch 0 — accepted as
`Valid`), yet deserializing its serialization changes the pool's nullifier
set: the hash-only persistent format rebuilds the nullifier with the pool's
epoch 0. -/
theorem distributor_roundtrip_counterexample :
    (UBIDeserialize initUBIDistributor (UBISerialize mismatchedDist)).map
        (fun x => x.pools) ≠ some mismatchedDist.pools ∧
      (mapFind 0 mismatchedDist.pools).map (fun p => p.usedNullifiers)
        = some [{ hash := 7, nEpoch := 99 }] ∧
      (ProcessClaim acceptAll fundedDist mismatchedClaim 0 10).1 = ClaimStatus.Valid := by
  exact ⟨by decide, by decide, by decide⟩

/-- Witness for C7 (amended) at the concrete funded distributor state. -/
theorem distributor_serialize_roundtrip_witness :
    WFDistributor fundedDist ∧
      UBIDeserialize initUBIDistributor (UBISerialize fundedDist)
        = some { initUBIDistributor with
            currentEpoch := fundedDist.currentEpoch, pools := fundedDist.pools } :=
  ⟨by decide, distributor_serialize_roundtrip fundedDist initUBIDistributor (by decide)⟩

end Shurium
